import Mathlib

/-!
Verification of the sticker-generator label engine
(`sticker_generator_clean.py`) against its specification.

The Python source is shallowly embedded below.  Conventions used
throughout the embedding:

* Python strings are Lean `String`s (a wrapper around `List Char`);
  `str.strip()` is `pyStrip`, `str.lower()` is `pyLower` (ASCII case
  folding, which covers the Latin-script scope of the spec),
  `needle in haystack` is `hasSub`, `str.split()` is `wordsOf`,
  `" ".join` is `joinWords`.
* Spreadsheet cells are `Option String`: `none` models an empty cell
  (pandas `NaN`, whose `str()` image is `"nan"`).
* `reportlab.stringWidth(text, font, size)` is an external font-metric
  capability; functions that need it take a width function
  `sw : String → ℚ` (for a fixed font and size) or
  `meas : ℚ → String → ℚ` (size-indexed) as a parameter.
  Real metrics are additive per character; `swOfChar` builds such a
  measure from a non-negative per-character width table.
* Python floats are modelled by exact rationals (`ℚ`); the mm unit
  (72/25.4 points) is the exact rational `mmQ`.
-/

/-! ### Python string primitives -/

/-- Python `str.strip()`: remove leading and trailing whitespace. -/
def pyStrip (s : String) : String :=
  ⟨((s.data.dropWhile Char.isWhitespace).reverse.dropWhile Char.isWhitespace).reverse⟩

/-- Python `str.lower()` (ASCII case folding). -/
def pyLower (s : String) : String := ⟨s.data.map Char.toLower⟩

/-- Helper for `hasSub`: does `pat` occur as a contiguous run in the list? -/
def hasSubAux (pat : List Char) : List Char → Bool
  | [] => pat.isEmpty
  | c :: t => pat.isPrefixOf (c :: t) || hasSubAux pat t

/-- Python `pat in s` (substring containment). -/
def hasSub (s pat : String) : Bool := hasSubAux pat.data s.data

/-- Helper for `wordsOf`: split a char list on whitespace runs, with the
current (reversed) partial word as the accumulator. -/
def splitWordsAux : List Char → List Char → List String
  | [], cur => if cur.isEmpty then [] else [⟨cur.reverse⟩]
  | c :: cs, cur =>
    if c.isWhitespace then
      if cur.isEmpty then splitWordsAux cs []
      else ⟨cur.reverse⟩ :: splitWordsAux cs []
    else splitWordsAux cs (c :: cur)

/-- Python `text.split()`: the whitespace-delimited word sequence. -/
def wordsOf (s : String) : List String := splitWordsAux s.data []

/-- Python `" ".join(ws)`. -/
def joinWords : List String → String
  | [] => ""
  | [w] => w
  | w :: x :: ws => w ++ " " ++ joinWords (x :: ws)

/-- A proper word: non-empty and containing no whitespace character
(exactly what `str.split()` produces). -/
def IsWordB (w : String) : Bool :=
  !w.data.isEmpty && w.data.all (fun c => !c.isWhitespace)

/-! ### The greedy word-wrapper (`wrap_text`, source lines 190-204)

```python
def wrap_text(text, font, size, width):
    if not text:
        return []
    words, lines, line = text.split(), [], ""
    for w in words:
        test = (line + " " + w).strip()
        if stringWidth(test, font, size) <= width:
            line = test
        else:
            if line:
                lines.append(line)
            line = w
    if line:
        lines.append(line)
    return lines
```

`sw` stands for `stringWidth(·, font, size)` at the fixed font and
candidate size.  Since `line` is always a space-join of earlier words and
`w` is a word, `(line + " " + w).strip()` equals `w` when `line` is empty
and `line ++ " " ++ w` otherwise. -/

/-- The loop of `wrap_text` over the remaining words, with the pending
line as the accumulator. -/
def wrapLoop (sw : String → ℚ) (width : ℚ) : List String → String → List String
  | [], line => if line = "" then [] else [line]
  | w :: ws, line =>
    let test := if line = "" then w else line ++ " " ++ w
    if sw test ≤ width then wrapLoop sw width ws test
    else if line = "" then wrapLoop sw width ws w
    else line :: wrapLoop sw width ws w

/-- `wrap_text` from the source. -/
def wrap_text (sw : String → ℚ) (width : ℚ) (text : String) : List String :=
  if text = "" then [] else wrapLoop sw width (wordsOf text) ""

/-- Word-level view of the greedy wrapper: lines are word lists and the
fit test receives the tentative line.  `wrapLoop` is proved equal to this
function under `joinWords`. -/
def wrapW (fits : List String → Bool) : List String → List String → List (List String)
  | [], cur => if cur.isEmpty then [] else [cur]
  | w :: ws, cur =>
    if fits (cur ++ [w]) then wrapW fits ws (cur ++ [w])
    else if cur.isEmpty then wrapW fits ws [w]
    else cur :: wrapW fits ws [w]

/-- The fit test used by `wrap_text` at width bound `width`. -/
def fitsOf (sw : String → ℚ) (width : ℚ) : List String → Bool :=
  fun L => decide (sw (joinWords L) ≤ width)

/-- A width function that is zero everywhere (used to instantiate
universally quantified metric parameters on concrete examples). -/
def swZero : String → ℚ := fun _ => 0

/-! ### Layout constants (source lines 166-172, 303-304)

`mm` is reportlab's millimetre unit, 72/25.4 points; modelled exactly. -/

def mmQ : ℚ := 360 / 127

def SPACING : ℚ := 1.15

def BASE_LABEL_W : ℚ := 58 * mmQ

def BASE_LABEL_H : ℚ := 39 * mmQ

def COMPACT_LABEL_H : ℚ := 37 * mmQ

def PAD : ℚ := 0.5 * mmQ

/-- `available_width = BASE_LABEL_W - 2 * PAD - 15` (source line 303). -/
def availableWidth : ℚ := BASE_LABEL_W - 2 * PAD - 15

def min_size : ℚ := 2

def max_size : ℚ := 7

/-! ### Auto-fit font-size search (source lines 307-316)

```python
chosen_font_size = min_size
for font_size in [x / 10 for x in range(int(max_size * 10), int(min_size * 10) - 1, -1)]:
    wrapped_desc = wrap_text(desc, FONT, font_size, available_width)
    wrapped_remarks = wrap_text(f"Remarks: {remarks}", FONT, font_size, available_width) \
        if remarks.strip() else []
    total_height = (len(header_lines) + len(wrapped_desc) + len(footer_fixed)
        + len(wrapped_remarks)) * font_size * SPACING
    if total_height <= LABEL_H - 0.3 * mm:
        chosen_font_size = font_size
        break
```
-/

/-- `range(70, 19, -1)`: the candidate sizes in tenths, descending. -/
def candidateTenths : List ℕ := (List.range' 20 51).reverse

/-- The candidate font sizes `[7.0, 6.9, ..., 2.0]`. -/
def candidateSizes : List ℚ := candidateTenths.map (fun x : ℕ => (x : ℚ) / 10)

/-- `total_height` for a candidate size: header-line count plus wrapped
description lines plus footer count plus wrapped remark lines, times size,
times the line-spacing factor. -/
def totalHeightAt (meas : ℚ → String → ℚ) (availW : ℚ) (nHeader nFooter : ℕ)
    (desc remarks : String) (s : ℚ) : ℚ :=
  let wrappedDesc := wrap_text (meas s) availW desc
  let wrappedRemarks :=
    if pyStrip remarks ≠ "" then wrap_text (meas s) availW ("Remarks: " ++ remarks) else []
  ((nHeader + wrappedDesc.length + nFooter + wrappedRemarks.length : ℕ) : ℚ) * s * SPACING

/-- The `for ... break` loop over candidate sizes: first fitting size, else
the initial value `min_size`. -/
def sizeSearch (fits : ℚ → Bool) : List ℚ → ℚ
  | [] => min_size
  | s :: rest => if fits s then s else sizeSearch fits rest

/-- The chosen font size for a composed label. -/
def chooseFontSize (meas : ℚ → String → ℚ) (availW : ℚ) (nHeader nFooter : ℕ)
    (desc remarks : String) (labelH : ℚ) : ℚ :=
  sizeSearch
    (fun s => decide
      (totalHeightAt meas availW nHeader nFooter desc remarks s ≤ labelH - 0.3 * mmQ))
    candidateSizes

/-- A size-indexed width measure that is zero everywhere (for concrete
instantiations of metric parameters). -/
def measZero : ℚ → String → ℚ := fun _ _ => 0

/-! ### Spreadsheet cells and the header locator (source lines 59-69)

```python
raw = pd.read_excel(filename, header=None, dtype=str, engine="openpyxl")
header_row = None
for i, row in raw.iterrows():
    line = " ".join(str(x).lower() for x in row.tolist())
    if "description" in line and ("po" in line or "po number" in line):
        header_row = i
        break
if header_row is None:
    raise SystemExit("❌ Header row not found (no 'Description' found).")
```
-/

/-- Python `str(x)` of a raw cell: an empty cell (NaN) prints `"nan"`. -/
def cellStr : Option String → String
  | none => "nan"
  | some s => s

/-- A row's joined lower-cased text. -/
def rowLine (row : List (Option String)) : String :=
  joinWords (row.map (fun c => pyLower (cellStr c)))

/-- The header signature test for one row. -/
def headerRowMatches (row : List (Option String)) : Bool :=
  hasSub (rowLine row) "description" &&
    (hasSub (rowLine row) "po" || hasSub (rowLine row) "po number")

/-- The header scan with a running row index. -/
def findHeaderFrom : List (List (Option String)) → ℕ → Option ℕ
  | [], _ => none
  | r :: rs, i => if headerRowMatches r then some i else findHeaderFrom rs (i + 1)

/-- Index of the first row matching the header signature, if any. -/
def locate_header (sheet : List (List (Option String))) : Option ℕ :=
  findHeaderFrom sheet 0

/-! ### Preamble parsing (source lines 71-122)

The regular expressions of the source are compiled by hand into
deterministic matchers whose behaviour (greedy quantifiers, alternation
order, leftmost search) follows Python `re` semantics. -/

/-- `safe_join`: trim every cell, drop empty and literal `"nan"` cells,
join the rest with spaces. -/
def safeJoin (row : List (Option String)) : String :=
  joinWords ((row.map (fun c => pyStrip (cellStr c))).filter
    (fun s => s ≠ "" && pyLower s ≠ "nan"))

/-- Consume the case-insensitive literal `kw` (given lower-case) from the
head of `l`; the remainder on success. -/
def stripKw : List Char → List Char → Option (List Char)
  | [], l => some l
  | _ :: _, [] => none
  | k :: ks, c :: cs => if c.toLower = k then stripKw ks cs else none

/-- Characters of the token class `[A-Za-z0-9\-_/]`. -/
def isTokChar (c : Char) : Bool :=
  c.isAlpha || c.isDigit || c = '-' || c = '_' || c = '/'

/-- Leftmost-match search: try the matcher at every position. -/
def searchAux {α : Type} (m : List Char → Option α) : List Char → Option α
  | [] => m []
  | c :: cs =>
    match m (c :: cs) with
    | some r => some r
    | none => searchAux m cs

/-- Match `PO\s*Number\s*[:\-]\s*([A-Za-z0-9\-_/]+)` (case-insensitive) at
the current position; returns the captured token. -/
def matchPoAt (l : List Char) : Option String := do
  let r1 ← stripKw "po".data l
  let r2 ← stripKw "number".data (r1.dropWhile Char.isWhitespace)
  match r2.dropWhile Char.isWhitespace with
  | c :: r3 =>
    if c = ':' ∨ c = '-' then
      let tok := (r3.dropWhile Char.isWhitespace).takeWhile isTokChar
      if tok.isEmpty then none else some ⟨tok⟩
    else none
  | [] => none

/-- Match `\s*[:\-]\s*(.+)` after a label keyword.  `.` does not match a
newline, so the greedy capture runs to the next newline; when only
whitespace follows the separator, the regex backtracks into the
whitespace run and captures its last non-newline character. -/
def matchSepRest (l : List Char) : Option String :=
  match l.dropWhile Char.isWhitespace with
  | c :: r =>
    if c = ':' ∨ c = '-' then
      let rest := r.dropWhile Char.isWhitespace
      if rest.isEmpty then
        match (r.takeWhile Char.isWhitespace).reverse.dropWhile (fun x => x = '\n') with
        | [] => none
        | d :: _ => some ⟨[d]⟩
      else some ⟨rest.takeWhile (fun x => x ≠ '\n')⟩
    else none
  | [] => none

/-- Match `(client|company)\s*[:\-]\s*(.+)` (ci) at the current position,
returning the second capture group. -/
def matchCompanyAt (l : List Char) : Option String :=
  ((stripKw "client".data l).bind matchSepRest) <|>
    ((stripKw "company".data l).bind matchSepRest)

/-- Match `(client|customer|company|customer name)\s*[:\-]\s*(.+)` (ci),
used by the smart-guard rescan. -/
def matchClientBigAt (l : List Char) : Option String :=
  ((stripKw "client".data l).bind matchSepRest) <|>
    ((stripKw "customer".data l).bind matchSepRest) <|>
    ((stripKw "company".data l).bind matchSepRest) <|>
    ((stripKw "customer name".data l).bind matchSepRest)

/-- One iteration of the preamble scan (source lines 77-91) over the
state `(company, po_number)`:

```python
text = safe_join(raw.iloc[i].tolist())
if not text:
    continue
m1 = re.search(r'(client|company)\s*[:\-]\s*(.+)', text, re.I)
if not m1 and len(text.split()) > 2 and "po" not in text.lower():
    company = text.strip()
m2 = re.search(r'PO\s*Number\s*[:\-]\s*([A-Za-z0-9\-_\/]+)', text, re.I)
if m1:
    company = m1.group(2).strip()
if m2:
    po_number = m2.group(1).strip()
```
-/
def scanStep (st : String × String) (row : List (Option String)) : String × String :=
  let text := safeJoin row
  if text = "" then st
  else
    let m1 := searchAux matchCompanyAt text.data
    let m2 := searchAux matchPoAt text.data
    let company1 :=
      if m1 = none ∧ (wordsOf text).length > 2 ∧ hasSub (pyLower text) "po" = false
      then pyStrip text else st.1
    let company2 :=
      match m1 with
      | some cap => pyStrip cap
      | none => company1
    let po2 :=
      match m2 with
      | some tok => pyStrip tok
      | none => st.2
    (company2, po2)

/-- The preamble scan over the rows above the header row. -/
def scanPreamble (rows : List (List (Option String))) : String × String :=
  rows.foldl scanStep ("", "")

/-- First labeled client/customer/company match in the preamble
(smart-guard rescan, source lines 100-107). -/
def firstLabeledCompany (rows : List (List (Option String))) : Option String :=
  rows.findSome? (fun r =>
    let text := safeJoin r
    if text = "" then none
    else (searchAux matchClientBigAt text.data).map pyStrip)

/-- First long preamble line free of "msg" and "po" (source lines 110-115). -/
def firstLongLine (rows : List (List (Option String))) : Option String :=
  rows.findSome? (fun r =>
    let text := safeJoin r
    if text ≠ "" ∧ hasSub (pyLower text) "msg" = false ∧
        hasSub (pyLower text) "po" = false ∧ (wordsOf text).length > 2
    then some (pyStrip text) else none)

/-- Company resolution: the preamble scan followed by the MSG smart-guard
and the final fallback (source lines 76-122). -/
def resolveCompany (rows : List (List (Option String))) : String :=
  let c0 := (scanPreamble rows).1
  let c1 :=
    if c0 ≠ "" ∧ ("msg".data.isPrefixOf (pyLower c0).data ∨ hasSub (pyLower c0) "msg")
    then
      match firstLabeledCompany rows with
      | some c => c
      | none => (firstLongLine rows).getD ""
    else c0
  if c1 = "" then
    if c0 ≠ "" ∧ (hasSub (pyLower c0) "msg" ∨ hasSub (pyLower c0) "reference")
    then c0
    else "Client: N/A"
  else c1

/-- The assignment a single preamble line makes to `company`, if any: the
labeled capture when the line has one, else the heuristic whole-line
guess when the line has more than two words and no "po". -/
def lineCompanyAssign (row : List (Option String)) : Option String :=
  let text := safeJoin row
  if text = "" then none
  else
    match searchAux matchCompanyAt text.data with
    | some cap => some (pyStrip cap)
    | none =>
      if (wordsOf text).length > 2 ∧ hasSub (pyLower text) "po" = false
      then some (pyStrip text) else none

/-- The PO-number capture a single preamble line provides, if any. -/
def linePoAssign (row : List (Option String)) : Option String :=
  let text := safeJoin row
  if text = "" then none
  else (searchAux matchPoAt text.data).map pyStrip

/-! ### Quantity parsing and the copy count (source lines 232-241, 266-281) -/

/-- Value of an ASCII digit character. -/
def digitVal (c : Char) : ℕ := c.toNat - 48

/-- Value of a most-significant-first digit string. -/
def digitsVal (ds : List Char) : ℕ := ds.foldl (fun a c => 10 * a + digitVal c) 0

/-- Read an optional sign; `true` means negative. -/
def readSign (l : List Char) : Bool × List Char :=
  match l with
  | [] => (false, [])
  | c :: r => if c = '+' then (false, r) else if c = '-' then (true, r) else (false, l)

/-- The exact value `sign * mantissa * 10^exp`. -/
def pyVal (neg : Bool) (m : ℕ) (e : ℤ) : ℚ :=
  (if neg then -1 else 1) * (m : ℚ) * (10 : ℚ) ^ e

/-- The fractional part after the mantissa digits: digits after a point. -/
def pyFracPart : List Char → List Char × List Char
  | '.' :: r => (r.takeWhile Char.isDigit, r.dropWhile Char.isDigit)
  | l => ([], l)

/-- The optional exponent suffix `e/E [sign] digits` (plus trailing
whitespace), applied to the mantissa value. -/
def pyExpPart (neg : Bool) (m : ℕ) (e1 : ℤ) : List Char → Option ℚ
  | [] => some (pyVal neg m e1)
  | c :: r3 =>
    if c = 'e' ∨ c = 'E' then
      let p3 := readSign r3
      let ed := p3.2.takeWhile Char.isDigit
      let r5 := p3.2.dropWhile Char.isDigit
      if ed.isEmpty then none
      else if r5.all Char.isWhitespace then
        some (pyVal neg m
          (e1 + (if p3.1 then -(digitsVal ed : ℤ) else (digitsVal ed : ℤ))))
      else none
    else if (c :: r3).all Char.isWhitespace then some (pyVal neg m e1)
    else none

/-- Python `float(s)` on finite decimal literals, modelled exactly over ℚ:
optional surrounding whitespace, optional sign, `digits[.digits]` or
`.digits`, optional exponent `e/E[sign]digits`.  `inf`/`nan` (whose
later `int()` raises) and digit-group underscores are outside the model;
for such inputs the pipeline reaches the same digit-extraction fallback
the source reaches via its exception handler. -/
def pyFloatQ (s : String) : Option ℚ :=
  let l0 := s.data.dropWhile Char.isWhitespace
  let p1 := readSign l0
  let ip := p1.2.takeWhile Char.isDigit
  let r1 := p1.2.dropWhile Char.isDigit
  let p2 := pyFracPart r1
  if ip.isEmpty && p2.1.isEmpty then none
  else pyExpPart p1.1 (digitsVal (ip ++ p2.1)) (-(p2.1.length : ℤ)) p2.2

/-- `re.sub(r"[^\d]", "", s)`: keep only the (ASCII) digits. -/
def onlyDigits (s : String) : String := ⟨s.data.filter Char.isDigit⟩

/-- Python `int()` applied to a real value: truncation toward zero. -/
def truncToZero (v : ℚ) : ℤ := if 0 ≤ v then ⌊v⌋ else ⌈v⌉

/-- The clamp of source lines 277-281: raise below 1 to 1, cap above 500. -/
def clampCopies (q : ℤ) : ℤ :=
  let q1 := if q < 1 then 1 else q
  if q1 > 500 then 500 else q1

/-- Lines 266-281: derive the integer number of copies from the
(formatted) quantity string: `int(float(po_qty))` when it parses, else
the string's digits, else 1; then clamp to [1, 500]. -/
def copiesOf (po_qty : String) : ℤ :=
  let q : ℤ :=
    if po_qty = "" then 1
    else
      match pyFloatQ po_qty with
      | some v => truncToZero v
      | none =>
        let d := onlyDigits po_qty
        if d = "" then 1 else (digitsVal d.data : ℤ)
  clampCopies q

/-- `str.replace(",", "")`. -/
def removeCommas (s : String) : String := ⟨s.data.filter (fun c => c ≠ ',')⟩

/-- Digit character of a value below ten. -/
def digitChar (d : ℕ) : Char :=
  match d with
  | 0 => '0' | 1 => '1' | 2 => '2' | 3 => '3' | 4 => '4'
  | 5 => '5' | 6 => '6' | 7 => '7' | 8 => '8' | _ => '9'

/-- Little-endian decimal digits of `n` (fuelled; `n` itself is enough fuel). -/
def natDecAux : ℕ → ℕ → List Char
  | 0, _ => []
  | f + 1, n => if n = 0 then [] else digitChar (n % 10) :: natDecAux f (n / 10)

/-- Decimal numeral of a natural number, as `str()` prints it. -/
def natDecimal (n : ℕ) : String := if n = 0 then "0" else ⟨(natDecAux n n).reverse⟩

/-- `str()` of an integer. -/
def intDecimal (i : ℤ) : String :=
  (if i < 0 then "-" else "") ++ natDecimal i.natAbs

/-- The least `k ≤ d` with `d ∣ 10^k`, when one exists (it does whenever
`d` divides some power of ten, in particular for every parsed decimal). -/
def pow10exp (d : ℕ) : Option ℕ := (List.range (d + 1)).find? (fun k => 10 ^ k % d = 0)

/-- Decimal digit string of the scaled integer `t` with the point placed
`k` digits from the right, trailing zeros (and a bare trailing point)
stripped. -/
def renderDigits (t : ℤ) (k : ℕ) : String :=
  let s := natDecimal t.natAbs
  let ds := List.replicate (k + 1 - s.data.length) '0' ++ s.data
  let ip := ds.take (ds.length - k)
  let fp := ((ds.drop (ds.length - k)).reverse.dropWhile (fun c => c = '0')).reverse
  (if t < 0 then "-" else "") ++ (⟨ip⟩ : String)
    ++ (if fp.isEmpty then "" else "." ++ (⟨fp⟩ : String))

/-- Decimal rendering of a non-integral rational whose denominator divides
a power of ten, trailing zeros and any trailing point stripped: the
value-faithful model of `str(n).rstrip("0").rstrip(".")` in `fmt_qty`.
(Python prints tiny/huge magnitudes in exponent notation instead; both
renderings parse back to the same value, which is all the pipeline uses;
the sign of the scaled integer equals the sign of the numerator.) -/
def renderDec (v : ℚ) : String :=
  match pow10exp v.den with
  | none => ""
  | some k => renderDigits (v.num * (10 : ℤ) ^ k / (v.den : ℤ)) k

/-- `fmt_qty` (source lines 232-241): strip, parse with thousands
separators removed; an integral value prints without fraction, a
non-integral one with trailing zeros stripped; on parse failure the
stripped input is returned unchanged. -/
def fmt_qty (q0 : String) : String :=
  let q := pyStrip q0
  if q = "" then ""
  else
    match pyFloatQ (removeCommas q) with
    | some v => if v.den = 1 then intDecimal v.num else renderDec v
    | none => q

/-- The copies derived from a raw quantity cell: `fmt_qty` (line 256)
followed by the parse-and-clamp of lines 266-281. -/
def copies_from_raw (raw : String) : ℤ := copiesOf (fmt_qty raw)

/-! ### Field extraction and description cleaning (source lines 177-230) -/

/-- Match `DPE\s*Item\s*Code\s*[:\-]?\s*([A-Za-z0-9\-_/]+)` (ci) at the
current position: the captured token and the remainder after the match.
`[:\-]?` is optional; when a dash is taken as separator but no token
follows, the regex backtracks and reads the token class from the dash. -/
def matchDpeAt (l : List Char) : Option (List Char × List Char) := do
  let r1 ← stripKw "dpe".data l
  let r2 ← stripKw "item".data (r1.dropWhile Char.isWhitespace)
  let r3 ← stripKw "code".data (r2.dropWhile Char.isWhitespace)
  let r4 := r3.dropWhile Char.isWhitespace
  match r4 with
  | c :: r5 =>
    if c = ':' ∨ c = '-' then
      let r6 := r5.dropWhile Char.isWhitespace
      let tok := r6.takeWhile isTokChar
      if tok.isEmpty then
        let tok2 := r4.takeWhile isTokChar
        if tok2.isEmpty then none else some (tok2, r4.drop tok2.length)
      else some (tok, r6.drop tok.length)
    else
      let tok := r4.takeWhile isTokChar
      if tok.isEmpty then none else some (tok, r4.drop tok.length)
  | [] => none

/-- `extract_dpe_code` (source lines 177-179). -/
def extract_dpe_code (text : String) : String :=
  match searchAux matchDpeAt text.data with
  | some p => pyStrip ⟨p.1⟩
  | none => ""

/-- One pass of `re.sub(pattern, "", t)`: at each position, if the matcher
fires, drop the match and continue after it, else keep the character and
advance.  Fuel is the length (every match consumes at least one char). -/
def subScan (m : List Char → Option (List Char)) : ℕ → List Char → List Char
  | 0, l => l
  | _ + 1, [] => []
  | f + 1, c :: cs =>
    match m (c :: cs) with
    | some rest => subScan m f rest
    | none => c :: subScan m f cs

/-- The DPE-pattern matcher as a removal matcher (whole-match remainder). -/
def matchDpeSub (l : List Char) : Option (List Char) := (matchDpeAt l).map (fun p => p.2)

/-- Matcher for `(?i)item\s*description\s*:?` (source line 184); the
greedy `\s*` before the optional colon is part of the match. -/
def matchItemDescAt (l : List Char) : Option (List Char) := do
  let r1 ← stripKw "item".data l
  let r2 ← stripKw "description".data (r1.dropWhile Char.isWhitespace)
  let r3 := r2.dropWhile Char.isWhitespace
  match r3 with
  | ':' :: r4 => some r4
  | _ => some r3

/-- `t.replace("\r", "\n")` (source line 185). -/
def crToNl (l : List Char) : List Char := l.map (fun c => if c = '\r' then '\n' else c)

/-- Split on newline, for `" ".join(t.splitlines())`.  (`splitlines` drops
a trailing empty piece and also splits on rare control characters; the
first difference is erased by the later whitespace collapse and final
strip, the second is outside the ASCII scope.) -/
def splitNlAux : List Char → List Char → List String
  | [], cur => [⟨cur.reverse⟩]
  | c :: cs, cur =>
    if c = '\n' then ⟨cur.reverse⟩ :: splitNlAux cs []
    else splitNlAux cs (c :: cur)

/-- `re.sub(r'\s{2,}', ' ', t)`: collapse each run of two or more
whitespace characters to a single space (fuelled scanner). -/
def collapseWS : ℕ → List Char → List Char
  | 0, l => l
  | _ + 1, [] => []
  | _ + 1, [c] => [c]
  | f + 1, c1 :: c2 :: cs =>
    if c1.isWhitespace && c2.isWhitespace
    then ' ' :: collapseWS f (cs.dropWhile Char.isWhitespace)
    else c1 :: collapseWS f (c2 :: cs)

/-- `re.sub(r'\s*,\s*', ', ', t)` (fuelled scanner). -/
def commaSpace : ℕ → List Char → List Char
  | 0, l => l
  | _ + 1, [] => []
  | f + 1, c :: cs =>
    match (c :: cs).dropWhile Char.isWhitespace with
    | ',' :: r2 => ',' :: ' ' :: commaSpace f (r2.dropWhile Char.isWhitespace)
    | _ => c :: commaSpace f cs

/-- `clean_description` (source lines 181-188): remove the embedded DPE
token and the `Item Description:` label, join lines with spaces, collapse
whitespace runs, normalize comma spacing, strip. -/
def clean_description (t0 : String) : String :=
  let t1 := subScan matchDpeSub t0.data.length t0.data
  let t2 := subScan matchItemDescAt t1.length t1
  let t3 := (joinWords (splitNlAux (crToNl t2) [])).data
  let t4 := collapseWS t3.length t3
  let t5 := commaSpace t4.length t4
  pyStrip ⟨t5⟩

/-- Python `s.replace(old, new)`: left-to-right, non-overlapping (fuelled). -/
def replaceAllF (old new : List Char) : ℕ → List Char → List Char
  | 0, l => l
  | _ + 1, [] => []
  | f + 1, c :: cs =>
    if !old.isEmpty && old.isPrefixOf (c :: cs)
    then new ++ replaceAllF old new f ((c :: cs).drop old.length)
    else c :: replaceAllF old new f cs

/-- Python `s.replace(old, new)` on strings. -/
def strReplace (s old new : String) : String :=
  ⟨replaceAllF old.data new.data s.data.length s.data⟩

/-- The normalized key variants of `get_field_from_row`
(source lines 209-221): each key, plus its "number"/"no" and
"qty"/"quantity" substitutions, in order. -/
def normKeys (keys : List String) : List String :=
  keys.flatMap (fun k =>
    if k = "" then []
    else
      let kk := pyLower (pyStrip k)
      [kk, strReplace kk "number" "no", strReplace kk "no" "number",
        strReplace kk "qty" "quantity", strReplace kk "quantity" "qty"])

/-- `nk in row.index` plus `row.get(nk)`: first column with that name. -/
def rowLookup (row : List (String × String)) (nk : String) : Option String :=
  (row.find? (fun p => p.1 = nk)).map (fun p => p.2)

/-- The lookup loop of `get_field_from_row` (source lines 222-230):
first non-empty stripped value among the normalized keys. -/
def gfLoop (row : List (String × String)) : List String → String
  | [] => ""
  | nk :: rest =>
    match rowLookup row nk with
    | some val => if pyStrip val = "" then gfLoop row rest else pyStrip val
    | none => gfLoop row rest

/-- `get_field_from_row` (source lines 206-230). -/
def get_field_from_row (row : List (String × String)) (keys : List String) : String :=
  gfLoop row (normKeys keys)

/-! ### Per-row label composition and the page pipeline (lines 243-330)

A `Page` records what the renderer draws for one physical copy: the
header block, the wrapped description, the wrapped footer entries, the
wrapped remarks, the chosen font size and the page height.  Logo and QR
images are external failure-tolerant collaborators and carry no data. -/

structure Page where
  headerLines : List String
  descLines : List String
  footerLines : List String
  remarksLines : List String
  fontSize : ℚ
  labelHeight : ℚ
deriving Repr, DecidableEq

def descFieldKeys : List String :=
  ["description", "item description", "item name", "material"]

/-- The cleaned description of a data row (the skip test of line 253). -/
def rowCleanDesc (row : List (String × String)) : String :=
  clean_description (get_field_from_row row descFieldKeys)

/-- The body of the per-row loop (source lines 248-319) for a row whose
cleaned description is non-empty. -/
def pagesForRowCore (meas : ℚ → String → ℚ) (company po_number : String)
    (row : List (String × String)) : List Page :=
  let item_no := get_field_from_row row ["sl no", "item no", "item number"]
  let dpe0 := get_field_from_row row ["dpe item code", "dpe code"]
  let dpe_code :=
    if dpe0 ≠ "" then dpe0
    else extract_dpe_code (get_field_from_row row ["description"])
  let desc := rowCleanDesc row
  let per_row_po := get_field_from_row row ["po number", "po no", "po"]
  let po_qty :=
    fmt_qty (get_field_from_row row ["po qty", "poqty", "po quantity", "qty", "quantity"])
  let uom := get_field_from_row row ["uom", "unit"]
  let heat := get_field_from_row row ["heat number", "heat no", "heat"]
  let cert := get_field_from_row row ["certificate number", "certificate no", "cert"]
  let make := get_field_from_row row ["make", "manufacturer"]
  let remarks := get_field_from_row row ["remarks", "remark"]
  let labelH := if pyStrip remarks = "" then COMPACT_LABEL_H else BASE_LABEL_H
  let qty := copiesOf po_qty
  let chosen_po := if per_row_po ≠ "" then per_row_po else po_number
  let header_lines :=
    (if company ≠ "" then [company] else []) ++
    (if chosen_po ≠ "" then ["PO Number: " ++ chosen_po] else []) ++
    (if item_no ≠ "" then ["ITEM NO: " ++ item_no] else []) ++
    (if dpe_code ≠ "" then ["DPE ITEM CODE: " ++ dpe_code] else [])
  let po_qty_full :=
    if po_qty ≠ "" ∨ uom ≠ "" then pyStrip ("PO QTY: " ++ po_qty ++ " " ++ uom)
    else "PO QTY: "
  let footer_fixed :=
    [po_qty_full] ++
    (if pyStrip heat ≠ "" then [pyStrip ("HEAT NUMBER: " ++ heat)] else []) ++
    [if pyStrip make ≠ "" then pyStrip ("MAKE: " ++ make) else "MAKE: "] ++
    (if pyStrip cert ≠ "" then [pyStrip ("CERTIFICATE NO: " ++ cert)] else [])
  let font_size := chooseFontSize meas availableWidth header_lines.length
    footer_fixed.length desc remarks labelH
  let page : Page := {
    headerLines := header_lines
    descLines := wrap_text (meas font_size) availableWidth desc
    footerLines :=
      footer_fixed.flatMap (fun ln => wrap_text (meas font_size) availableWidth ln)
    remarksLines :=
      if pyStrip remarks ≠ "" then
        wrap_text (meas font_size) availableWidth ("Remarks: " ++ remarks)
      else []
    fontSize := font_size
    labelHeight := labelH }
  List.replicate qty.toNat page

/-- The pages of one data row: the `continue` of line 253-254 skips a row
whose cleaned description strips to empty. -/
def pagesForRow (meas : ℚ → String → ℚ) (company po_number : String)
    (row : List (String × String)) : List Page :=
  if pyStrip (rowCleanDesc row) = "" then []
  else pagesForRowCore meas company po_number row

/-- The data rows (`pd.read_excel(header=h)` plus the column
normalization and blank-row filter of source lines 125-132).  Pandas
details no claim depends on: duplicate column labels are not mangled and
an unnamed header cell keeps its raw text instead of `Unnamed: k`
(neither can equal a lookup key). -/
def buildRows (sheet : List (List (Option String))) (h : ℕ) :
    List (List (String × String)) :=
  let cols := ((sheet.drop h).headD []).map (fun c => pyLower (pyStrip (cellStr c)))
  ((sheet.drop (h + 1)).map (fun r => cols.zip (r.map (fun c => c.getD "")))).filter
    (fun row => !(row.all (fun p => pyStrip p.2 == "")))

/-- The full run: locate the header (fatal when absent — the job aborts
with no pages), resolve the preamble metadata, and emit every row's
pages in order. -/
def generatePages (meas : ℚ → String → ℚ) (sheet : List (List (Option String))) :
    Except String (List Page) :=
  match locate_header sheet with
  | none => Except.error "Header row not found (no 'Description' found)."
  | some h =>
    let pre := sheet.take h
    let company := resolveCompany pre
    let po_number := (scanPreamble pre).2
    Except.ok ((buildRows sheet h).flatMap (pagesForRow meas company po_number))

/-! ### The additive font-metric model (for the monotonicity claim)

`reportlab.pdfbase.pdfmetrics.stringWidth(text, font, size)` is the sum of
the font's per-glyph widths over the text, scaled by the size; glyph
widths are non-negative.  `swOfChar cw size` is exactly that measure for
a width table `cw`. -/

/-- Per-character width table summed over the string, scaled by size. -/
def swOfChar (cw : Char → ℚ) (size : ℚ) : String → ℚ :=
  fun s => ((s.data.map cw).sum) * size

/-- A fit predicate closed under taking sub-multisets of a line's words:
what additive non-negative metrics give. -/
def SubClosedF (F : List String → Bool) : Prop :=
  ∀ L' L : List String, L'.Sublist L → F L = true → F L' = true

/-! ### Lemmas: words and joins -/

theorem String.data_app (a b : String) : (a ++ b).data = a.data ++ b.data := rfl

theorem String.mk_data (s : String) : String.mk s.data = s := rfl

theorem joinWords_cons_cons (w x : String) (ws : List String) :
    joinWords (w :: x :: ws) = w ++ " " ++ joinWords (x :: ws) := rfl

theorem joinWords_append_one (cur : List String) (w : String) :
    joinWords (cur ++ [w]) = if cur = [] then w else joinWords cur ++ " " ++ w := by
  induction cur with
  | nil => simp [joinWords]
  | cons x cur ih =>
    cases cur with
    | nil => simp [joinWords]
    | cons y cur' =>
      rw [if_neg (by simp)]
      have ih' : joinWords (y :: (cur' ++ [w])) = joinWords (y :: cur') ++ " " ++ w := by
        simpa using ih
      show joinWords (x :: y :: (cur' ++ [w])) = _
      rw [joinWords_cons_cons, ih', joinWords_cons_cons]
      apply String.ext
      simp [String.data_app]

theorem joinWords_ne_empty (L : List String) (h : ∀ w ∈ L, w ≠ "") (hL : L ≠ []) :
    joinWords L ≠ "" := by
  match L, hL with
  | [w], _ => exact h w (by simp)
  | w :: x :: ws, _ =>
    intro hc
    rw [joinWords_cons_cons] at hc
    have hdata := congrArg String.data hc
    have hE : ("" : String).data = [] := rfl
    rw [hE, String.data_app, String.data_app] at hdata
    simp at hdata

theorem splitWordsAux_chunk (d : List Char) (hd : ∀ c ∈ d, c.isWhitespace = false) :
    ∀ (r cur : List Char), splitWordsAux (d ++ r) cur = splitWordsAux r (d.reverse ++ cur) := by
  induction d with
  | nil => intro r cur; simp
  | cons c d ih =>
    intro r cur
    have hc : c.isWhitespace = false := hd c (by simp)
    have hd' : ∀ x ∈ d, x.isWhitespace = false := fun x hx => hd x (by simp [hx])
    simp only [List.cons_append, splitWordsAux, hc, Bool.false_eq_true, if_false,
      List.reverse_cons, List.append_assoc, List.singleton_append]
    exact ih hd' r (c :: cur)

theorem wordsOf_join (L : List String) (hL : ∀ w ∈ L, IsWordB w = true) :
    wordsOf (joinWords L) = L := by
  induction L with
  | nil => rfl
  | cons w ws ih =>
    have hw := hL w (by simp)
    have hwne : w.data ≠ [] := by
      simp [IsWordB] at hw
      simpa [List.isEmpty_iff] using hw.1
    have hwchars : ∀ c ∈ w.data, c.isWhitespace = false := by
      simp [IsWordB] at hw
      intro c hc
      simpa using hw.2 c hc
    cases ws with
    | nil =>
      have hch := splitWordsAux_chunk w.data hwchars [] []
      rw [List.append_nil, List.append_nil] at hch
      show splitWordsAux w.data [] = [w]
      rw [hch]
      have hrev : (w.data.reverse).isEmpty = false := by
        simp [List.isEmpty_iff, hwne]
      simp [splitWordsAux, hrev, String.mk_data]
    | cons x ws' =>
      have ihx := ih (fun u hu => hL u (by simp [hu]))
      show splitWordsAux (joinWords (w :: x :: ws')).data [] = w :: x :: ws'
      rw [joinWords_cons_cons]
      have hdata : (w ++ " " ++ joinWords (x :: ws')).data
          = w.data ++ (' ' :: (joinWords (x :: ws')).data) := by
        simp [String.data_app]
      rw [hdata, splitWordsAux_chunk w.data hwchars]
      simp only [List.append_nil, splitWordsAux]
      have hsp : (' ' : Char).isWhitespace = true := by decide
      rw [hsp]
      have hrev : (w.data.reverse).isEmpty = false := by
        simp [List.isEmpty_iff, hwne]
      simp only [if_true, hrev, Bool.false_eq_true, if_false, List.reverse_reverse,
        String.mk_data]
      exact congrArg (w :: ·) ihx

theorem splitWordsAux_words (l : List Char) :
    ∀ cur, (∀ c ∈ cur, c.isWhitespace = false) →
      ∀ w ∈ splitWordsAux l cur, IsWordB w = true := by
  induction l with
  | nil =>
    intro cur hcur w hw
    by_cases hc : cur.isEmpty
    · simp [splitWordsAux, hc] at hw
    · simp [splitWordsAux, hc] at hw
      subst hw
      simp [IsWordB, List.isEmpty_iff, List.all_eq_true]
      constructor
      · intro h0
        rw [List.isEmpty_iff] at hc
        exact hc (by simpa using congrArg List.reverse h0)
      · intro c hc'
        simpa using hcur c (by simpa using hc')
  | cons c cs ih =>
    intro cur hcur w hw
    by_cases hws : c.isWhitespace
    · by_cases hc : cur.isEmpty
      · simp [splitWordsAux, hws, hc] at hw
        exact ih [] (by simp) w hw
      · simp [splitWordsAux, hws, hc] at hw
        rcases hw with hw | hw
        · subst hw
          simp [IsWordB, List.isEmpty_iff, List.all_eq_true]
          constructor
          · intro h0
            rw [List.isEmpty_iff] at hc
            exact hc (by simpa using congrArg List.reverse h0)
          · intro x hx
            simpa using hcur x (by simpa using hx)
        · exact ih [] (by simp) w hw
    · simp only [splitWordsAux, hws, Bool.false_eq_true, if_false] at hw
      refine ih (c :: cur) ?_ w hw
      intro x hx
      rcases List.mem_cons.mp hx with h | h
      · subst h; simpa using hws
      · exact hcur x h

theorem wordsOf_words (s : String) : ∀ w ∈ wordsOf s, IsWordB w = true :=
  splitWordsAux_words s.data [] (by simp)

theorem isWordB_ne_empty {w : String} (h : IsWordB w = true) : w ≠ "" := by
  simp [IsWordB] at h
  intro hc
  subst hc
  simp at h

/-! ### Lemmas: `wrapLoop` agrees with the word-level wrapper -/

theorem wrapLoop_eq_wrapW (sw : String → ℚ) (width : ℚ) :
    ∀ (ws cur : List String), (∀ w ∈ cur, w ≠ "") → (∀ w ∈ ws, w ≠ "") →
      wrapLoop sw width ws (joinWords cur)
        = (wrapW (fitsOf sw width) ws cur).map joinWords := by
  intro ws
  induction ws with
  | nil =>
    intro cur hcur _
    by_cases h : cur = []
    · subst h; rfl
    · have h1 : joinWords cur ≠ "" := joinWords_ne_empty cur hcur h
      have h2 : cur.isEmpty = false := by simpa [List.isEmpty_iff] using h
      simp [wrapLoop, wrapW, h1, h2]
  | cons w ws ih =>
    intro cur hcur hws
    have hw : w ≠ "" := hws w (by simp)
    have hws' : ∀ u ∈ ws, u ≠ "" := fun u hu => hws u (by simp [hu])
    have htest : (if joinWords cur = "" then w else joinWords cur ++ " " ++ w)
        = joinWords (cur ++ [w]) := by
      rw [joinWords_append_one]
      by_cases h : cur = []
      · simp [h, joinWords]
      · have h1 : joinWords cur ≠ "" := joinWords_ne_empty cur hcur h
        simp [h, h1]
    show wrapLoop sw width (w :: ws) (joinWords cur) = _
    rw [wrapLoop]
    simp only [htest]
    by_cases hfit : sw (joinWords (cur ++ [w])) ≤ width
    · have hf : fitsOf sw width (cur ++ [w]) = true := by
        simp [fitsOf, hfit]
      rw [if_pos hfit]
      rw [ih (cur ++ [w]) ?_ hws']
      · simp [wrapW, hf]
      · intro u hu
        rcases List.mem_append.mp hu with h | h
        · exact hcur u h
        · simp at h; subst h; exact hw
    · have hf : fitsOf sw width (cur ++ [w]) = false := by
        simp [fitsOf, hfit]
      rw [if_neg hfit]
      by_cases h : cur = []
      · have h2 : cur.isEmpty = true := by simp [h]
        have hje : joinWords cur = "" := by simp [h, joinWords]
        rw [if_pos hje]
        have := ih [w] (by intro u hu; simp at hu; subst hu; exact hw) hws'
        simp only [joinWords] at this
        rw [this]
        simp [wrapW, hf, h2]
      · have h1 : joinWords cur ≠ "" := joinWords_ne_empty cur hcur h
        have h2 : cur.isEmpty = false := by simpa [List.isEmpty_iff] using h
        rw [if_neg h1]
        have := ih [w] (by intro u hu; simp at hu; subst hu; exact hw) hws'
        simp only [joinWords] at this
        rw [this]
        simp [wrapW, hf, h2]

/-! ### Lemmas: word-level wrapper properties -/

theorem wrapW_flatten (fits : List String → Bool) :
    ∀ (ws cur : List String), (wrapW fits ws cur).flatten = cur ++ ws := by
  intro ws
  induction ws with
  | nil =>
    intro cur
    by_cases h : cur.isEmpty
    · rw [List.isEmpty_iff] at h
      simp [wrapW, h]
    · simp [wrapW, h]
  | cons w ws ih =>
    intro cur
    by_cases hf : fits (cur ++ [w])
    · simp [wrapW, hf, ih]
    · by_cases h : cur.isEmpty
      · rw [List.isEmpty_iff] at h
        simp [wrapW, hf, h, ih]
      · simp [wrapW, hf, h, ih]

theorem wrapW_chunk_fits (fits : List String → Bool) :
    ∀ (ws cur : List String),
      (cur = [] ∨ fits cur = true ∨ ∃ w, cur = [w]) →
      ∀ C ∈ wrapW fits ws cur, fits C = true ∨ ∃ w, C = [w] := by
  intro ws
  induction ws with
  | nil =>
    intro cur hcur C hC
    by_cases h : cur.isEmpty
    · simp [wrapW, h] at hC
    · simp [wrapW, h] at hC
      subst hC
      rcases hcur with h0 | h
      · rw [List.isEmpty_iff] at h; exact absurd h0 h
      · exact h
  | cons w ws ih =>
    intro cur hcur C hC
    by_cases hf : fits (cur ++ [w])
    · simp only [wrapW, hf, if_pos] at hC
      exact ih (cur ++ [w]) (Or.inr (Or.inl hf)) C hC
    · by_cases h : cur.isEmpty
      · simp only [wrapW, hf, Bool.false_eq_true, if_false, h, if_pos] at hC
        exact ih [w] (Or.inr (Or.inr ⟨w, rfl⟩)) C hC
      · simp only [wrapW, hf, Bool.false_eq_true, if_false, h, List.mem_cons] at hC
        rcases hC with hC | hC
        · subst hC
          rcases hcur with h0 | hcur
          · rw [List.isEmpty_iff] at h; exact absurd h0 h
          · exact hcur
        · exact ih [w] (Or.inr (Or.inr ⟨w, rfl⟩)) C hC

theorem wrapW_chunk_ne_nil (fits : List String → Bool) :
    ∀ (ws cur : List String), ∀ C ∈ wrapW fits ws cur, C ≠ [] := by
  intro ws
  induction ws with
  | nil =>
    intro cur C hC
    by_cases h : cur.isEmpty
    · simp [wrapW, h] at hC
    · simp [wrapW, h] at hC
      subst hC
      simpa [List.isEmpty_iff] using h
  | cons w ws ih =>
    intro cur C hC
    by_cases hf : fits (cur ++ [w])
    · simp only [wrapW, hf, if_pos] at hC
      exact ih (cur ++ [w]) C hC
    · by_cases h : cur.isEmpty
      · simp only [wrapW, hf, Bool.false_eq_true, if_false, h, if_pos] at hC
        exact ih [w] C hC
      · simp only [wrapW, hf, Bool.false_eq_true, if_false, h, List.mem_cons] at hC
        rcases hC with hC | hC
        · subst hC; simpa [List.isEmpty_iff] using h
        · exact ih [w] C hC

/-- The full wrapper output, at the word level. -/
theorem wrap_text_eq_wrapW (sw : String → ℚ) (width : ℚ) (text : String) :
    wrap_text sw width text = (wrapW (fitsOf sw width) (wordsOf text) []).map joinWords := by
  by_cases h : text = ""
  · subst h; rfl
  · have hw := wrapLoop_eq_wrapW sw width (wordsOf text) [] (by simp)
      (fun w hw => isWordB_ne_empty (wordsOf_words text w hw))
    rw [wrap_text, if_neg h]
    simpa [joinWords] using hw

/-- Auxiliary: flatMapping `wordsOf` over joined chunks recovers the flattened chunks. -/
theorem flatMap_wordsOf_join (L : List (List String))
    (h : ∀ C ∈ L, wordsOf (joinWords C) = C) :
    (L.map joinWords).flatMap wordsOf = L.flatten := by
  induction L with
  | nil => rfl
  | cons C L ih =>
    rw [List.map_cons, List.flatMap_cons, h C (by simp), List.flatten_cons,
      ih (fun D hD => h D (by simp [hD]))]

/-- C3: the greedy wrapper drops no word — the words of the produced
lines, concatenated in order, are exactly the words of the input text;
and a single word (in particular one wider than `width`) is emitted whole
on its own line. -/
theorem c3_wrap_preserves_words (sw : String → ℚ) (width : ℚ) (text : String) :
    (wrap_text sw width text).flatMap wordsOf = wordsOf text ∧
    ∀ w : String, IsWordB w = true → wrap_text sw width w = [w] := by
  constructor
  · rw [wrap_text_eq_wrapW]
    have hflat := wrapW_flatten (fitsOf sw width) (wordsOf text) []
    simp only [List.nil_append] at hflat
    have hmem : ∀ C ∈ wrapW (fitsOf sw width) (wordsOf text) [],
        wordsOf (joinWords C) = C := by
      intro C hC
      apply wordsOf_join
      intro u hu
      apply wordsOf_words text
      rw [← hflat]
      exact List.mem_flatten.mpr ⟨C, hC, hu⟩
    rw [flatMap_wordsOf_join _ hmem, hflat]
  · intro w hw
    have hne := isWordB_ne_empty hw
    have hwords : wordsOf w = [w] := by
      have := wordsOf_join [w] (by intro u hu; simp at hu; subst hu; exact hw)
      simpa [joinWords] using this
    rw [wrap_text, if_neg hne, hwords]
    by_cases hfit : sw w ≤ width <;> simp [wrapLoop, hfit, hne]

/-- C3 witness at concrete inputs. -/
theorem c3_wrap_preserves_words_witness :
    (wrap_text swZero 0 "alpha beta gamma").flatMap wordsOf = wordsOf "alpha beta gamma" ∧
    wrap_text swZero 0 "overlongword" = ["overlongword"] :=
  ⟨(c3_wrap_preserves_words swZero 0 "alpha beta gamma").1,
   (c3_wrap_preserves_words swZero 0 "overlongword").2 "overlongword" (by decide)⟩

/-- C4: every produced line fits in `width`, except a line that is a
single word of the input whose own measured width exceeds `width`; such a
word stands alone as its line. -/
theorem c4_wrap_width_bound (sw : String → ℚ) (width : ℚ) (text : String) :
    ∀ line ∈ wrap_text sw width text,
      sw line ≤ width ∨ (line ∈ wordsOf text ∧ width < sw line) := by
  intro line hline
  rw [wrap_text_eq_wrapW] at hline
  rcases List.mem_map.mp hline with ⟨C, hC, rfl⟩
  rcases wrapW_chunk_fits _ _ [] (Or.inl rfl) C hC with hfit | ⟨w, rfl⟩
  · left
    simpa [fitsOf] using hfit
  · by_cases hf : sw (joinWords [w]) ≤ width
    · left; exact hf
    · right
      refine ⟨?_, not_le.mp hf⟩
      have hflat := wrapW_flatten (fitsOf sw width) (wordsOf text) []
      simp only [List.nil_append] at hflat
      have : w ∈ wordsOf text := by
        rw [← hflat]
        exact List.mem_flatten.mpr ⟨[w], hC, by simp⟩
      simpa [joinWords] using this

/-- C4 witness at a concrete input. -/
theorem c4_wrap_width_bound_witness :
    swZero "alpha beta" ≤ 0 ∨
      ("alpha beta" ∈ wordsOf "alpha beta" ∧ (0:ℚ) < swZero "alpha beta") :=
  c4_wrap_width_bound swZero 0 "alpha beta" "alpha beta" (by decide)

/-! ### Lemmas: the candidate-size grid and the descending search -/

theorem chain'_range'_succ (s n : ℕ) :
    List.Chain' (fun a b => b = a + 1) (List.range' s n) := by
  induction n generalizing s with
  | zero => simp
  | succ n ih =>
    rw [List.range'_succ]
    rw [List.chain'_cons']
    refine ⟨?_, ih (s + 1)⟩
    intro b hb
    cases n with
    | zero => simp at hb
    | succ m =>
      rw [List.range'_succ] at hb
      simp at hb
      omega

theorem candidateSizes_chain :
    List.Chain' (fun a b => a = b + 1/10) candidateSizes := by
  rw [candidateSizes, List.chain'_map, candidateTenths, List.chain'_reverse]
  refine (chain'_range'_succ 20 51).imp ?_
  intro a b hab
  show (b : ℚ)/10 = (a : ℚ)/10 + 1/10
  subst hab
  push_cast
  ring

theorem candidateSizes_length : candidateSizes.length = 51 := by
  simp [candidateSizes, candidateTenths]

theorem candidateSizes_head : candidateSizes.head? = some max_size := by
  rw [candidateSizes, List.head?_map]
  have h : candidateTenths.head? = some 70 := by decide
  rw [h]
  show some ((70 : ℚ)/10) = some max_size
  norm_num [max_size]

theorem candidateSizes_getLast : candidateSizes.getLast? = some min_size := by
  rw [candidateSizes, List.getLast?_map]
  have h : candidateTenths.getLast? = some 20 := by decide
  rw [h]
  show some ((20 : ℚ)/10) = some min_size
  norm_num [min_size]

theorem candidateSizes_min_le : ∀ s ∈ candidateSizes, min_size ≤ s := by
  intro s hs
  rw [candidateSizes, List.mem_map] at hs
  obtain ⟨x, hx, rfl⟩ := hs
  rw [candidateTenths, List.mem_reverse, List.mem_range'] at hx
  obtain ⟨i, _, rfl⟩ := hx
  rw [min_size]
  have h20 : (20 : ℚ) ≤ ((20 + 1 * i : ℕ) : ℚ) := by push_cast; linarith
  linarith

theorem candidateSizes_sorted : List.Pairwise (fun a b : ℚ => b ≤ a) candidateSizes := by
  haveI : IsTrans ℚ (fun a b : ℚ => b ≤ a) := ⟨fun _ _ _ hab hbc => le_trans hbc hab⟩
  refine List.chain'_iff_pairwise.mp (candidateSizes_chain.imp ?_)
  intro a b hab
  rw [hab]
  linarith

theorem sizeSearch_eq_min_or_mem (fits : ℚ → Bool) (l : List ℚ) :
    sizeSearch fits l = min_size ∨ sizeSearch fits l ∈ l := by
  induction l with
  | nil => left; rfl
  | cons s rest ih =>
    by_cases hf : fits s
    · right; simp [sizeSearch, hf]
    · have hss : sizeSearch fits (s :: rest) = sizeSearch fits rest := by
        simp [sizeSearch, hf]
      rw [hss]
      rcases ih with h | h
      · left; exact h
      · right; exact List.mem_cons_of_mem _ h

theorem sizeSearch_none (fits : ℚ → Bool) (l : List ℚ)
    (h : ∀ s ∈ l, fits s = false) : sizeSearch fits l = min_size := by
  induction l with
  | nil => rfl
  | cons s rest ih =>
    have hf : fits s = false := h s (by simp)
    have hss : sizeSearch fits (s :: rest) = sizeSearch fits rest := by
      simp [sizeSearch, hf]
    rw [hss]
    exact ih (fun t ht => h t (by simp [ht]))

theorem sizeSearch_found (fits : ℚ → Bool) (l : List ℚ)
    (hsort : List.Pairwise (fun a b : ℚ => b ≤ a) l)
    (hex : ∃ s ∈ l, fits s = true) :
    sizeSearch fits l ∈ l ∧ fits (sizeSearch fits l) = true ∧
      ∀ t ∈ l, fits t = true → t ≤ sizeSearch fits l := by
  induction l with
  | nil => simp at hex
  | cons s rest ih =>
    rw [List.pairwise_cons] at hsort
    by_cases hf : fits s
    · have hss : sizeSearch fits (s :: rest) = s := by simp [sizeSearch, hf]
      rw [hss]
      refine ⟨by simp, hf, ?_⟩
      intro t ht _
      rcases List.mem_cons.mp ht with rfl | ht
      · exact le_refl t
      · exact hsort.1 t ht
    · have hss : sizeSearch fits (s :: rest) = sizeSearch fits rest := by
        simp [sizeSearch, hf]
      rw [hss]
      have hex' : ∃ t ∈ rest, fits t = true := by
        rcases hex with ⟨t, ht, hft⟩
        rcases List.mem_cons.mp ht with rfl | ht
        · exact absurd hft (by simpa using hf)
        · exact ⟨t, ht, hft⟩
      obtain ⟨h1, h2, h3⟩ := ih hsort.2 hex'
      refine ⟨List.mem_cons_of_mem _ h1, h2, ?_⟩
      intro t ht hft
      rcases List.mem_cons.mp ht with rfl | ht
      · exact absurd hft (by simpa using hf)
      · exact h3 t ht hft

/-- C2: the font-size search examines the descending 0.1-step grid from
`max_size` (7.0) down to `min_size` (2.0) and returns the first — hence
largest — candidate whose stacked height fits within
`labelH − 0.3mm`; when no candidate fits, it falls back to `min_size`. -/
theorem c2_font_size_search (meas : ℚ → String → ℚ) (availW : ℚ) (nH nF : ℕ)
    (desc remarks : String) (labelH : ℚ) :
    (candidateSizes.length = 51 ∧
      candidateSizes.head? = some max_size ∧
      candidateSizes.getLast? = some min_size ∧
      List.Chain' (fun a b => a = b + 1/10) candidateSizes) ∧
    ((∀ s ∈ candidateSizes,
        ¬ totalHeightAt meas availW nH nF desc remarks s ≤ labelH - 0.3 * mmQ) →
      chooseFontSize meas availW nH nF desc remarks labelH = min_size) ∧
    ((∃ s ∈ candidateSizes,
        totalHeightAt meas availW nH nF desc remarks s ≤ labelH - 0.3 * mmQ) →
      chooseFontSize meas availW nH nF desc remarks labelH ∈ candidateSizes ∧
      totalHeightAt meas availW nH nF desc remarks
        (chooseFontSize meas availW nH nF desc remarks labelH) ≤ labelH - 0.3 * mmQ ∧
      ∀ t ∈ candidateSizes,
        totalHeightAt meas availW nH nF desc remarks t ≤ labelH - 0.3 * mmQ →
        t ≤ chooseFontSize meas availW nH nF desc remarks labelH) := by
  refine ⟨⟨candidateSizes_length, candidateSizes_head, candidateSizes_getLast,
    candidateSizes_chain⟩, ?_, ?_⟩
  · intro hnone
    apply sizeSearch_none
    intro s hs
    simpa using hnone s hs
  · intro hex
    have hex' : ∃ s ∈ candidateSizes,
        (decide (totalHeightAt meas availW nH nF desc remarks s ≤ labelH - 0.3 * mmQ)) = true := by
      rcases hex with ⟨s, hs, hfit⟩
      exact ⟨s, hs, by simpa using hfit⟩
    obtain ⟨h1, h2, h3⟩ := sizeSearch_found _ candidateSizes candidateSizes_sorted hex'
    refine ⟨h1, by simpa using h2, ?_⟩
    intro t ht hfit
    exact h3 t ht (by simpa using hfit)

/-- C2 witness: with a zero-width metric and empty content everything fits,
so the search accepts the largest candidate 7.0 and the fallback clause is
exercised vacuously on the characterization. -/
theorem c2_font_size_search_witness :
    chooseFontSize measZero 0 0 0 "" "" 100 ∈ candidateSizes ∧
    totalHeightAt measZero 0 0 0 "" ""
      (chooseFontSize measZero 0 0 0 "" "" 100) ≤ 100 - 0.3 * mmQ ∧
    ∀ t ∈ candidateSizes,
      totalHeightAt measZero 0 0 0 "" "" t ≤ 100 - 0.3 * mmQ →
      t ≤ chooseFontSize measZero 0 0 0 "" "" 100 := by
  refine (c2_font_size_search measZero 0 0 0 "" "" 100).2.2 ⟨7, ?_, ?_⟩
  · rw [candidateSizes, List.mem_map]
    exact ⟨70, by decide, by norm_num⟩
  · show totalHeightAt measZero 0 0 0 "" "" 7 ≤ 100 - 0.3 * mmQ
    rw [totalHeightAt]
    norm_num [wrap_text, pyStrip, mmQ]

/-! ### Lemmas: the preamble scan keeps the last assignment -/

theorem getLast?_cons_getD {α : Type} (x y : α) (l : List α) :
    ((x :: l).getLast?).getD y = (l.getLast?).getD x := by
  cases l with
  | nil => rfl
  | cons a l' =>
    rw [List.getLast?_cons_cons]
    cases hl : (a :: l').getLast? with
    | none =>
      rw [List.getLast?_eq_none_iff] at hl
      cases hl
    | some z => rfl

theorem foldl_optGetD {α β : Type} (g : α → Option β) :
    ∀ (rows : List α) (b : β),
      List.foldl (fun c r => (g r).getD c) b rows
        = ((rows.filterMap g).getLast?).getD b := by
  intro rows
  induction rows with
  | nil => intro b; rfl
  | cons r rows ih =>
    intro b
    rw [List.foldl_cons, ih]
    cases hg : g r with
    | none => simp [List.filterMap_cons, hg]
    | some x => simp [List.filterMap_cons, hg, getLast?_cons_getD]

theorem scanStep_fst (st : String × String) (row : List (Option String)) :
    (scanStep st row).1 = (lineCompanyAssign row).getD st.1 := by
  rw [scanStep, lineCompanyAssign]
  by_cases ht : safeJoin row = ""
  · simp [ht]
  · simp only [ht, if_false]
    cases hm : searchAux matchCompanyAt (safeJoin row).data with
    | some cap => simp [hm]
    | none =>
      by_cases hcond : (wordsOf (safeJoin row)).length > 2 ∧
          hasSub (pyLower (safeJoin row)) "po" = false
      · simp [hm, hcond]
      · simp [hm, hcond]

theorem scanStep_snd (st : String × String) (row : List (Option String)) :
    (scanStep st row).2 = (linePoAssign row).getD st.2 := by
  rw [scanStep, linePoAssign]
  by_cases ht : safeJoin row = ""
  · simp [ht]
  · simp only [ht, if_false]
    cases hm : searchAux matchPoAt (safeJoin row).data with
    | some tok => simp [hm]
    | none => simp [hm]

theorem scanPreamble_fst (rows : List (List (Option String))) :
    ∀ st : String × String,
      (rows.foldl scanStep st).1
        = List.foldl (fun c r => (lineCompanyAssign r).getD c) st.1 rows := by
  induction rows with
  | nil => intro st; rfl
  | cons r rows ih =>
    intro st
    rw [List.foldl_cons, List.foldl_cons, ih, scanStep_fst]

theorem scanPreamble_snd (rows : List (List (Option String))) :
    ∀ st : String × String,
      (rows.foldl scanStep st).2
        = List.foldl (fun c r => (linePoAssign r).getD c) st.2 rows := by
  induction rows with
  | nil => intro st; rfl
  | cons r rows ih =>
    intro st
    rw [List.foldl_cons, List.foldl_cons, ih, scanStep_snd]

/-- C7 (amended): the extracted `poNumber` is the captured token of the
LAST preamble line, scanning top to bottom, matching
`PO\s*Number\s*[:\-]\s*([A-Za-z0-9\-_/]+)` — each later match overwrites
the earlier ones — and the empty string when no line matches. -/
theorem c7_po_number_last_match (rows : List (List (Option String))) :
    (scanPreamble rows).2 = ((rows.filterMap linePoAssign).getLast?).getD "" := by
  rw [scanPreamble, scanPreamble_snd, foldl_optGetD]

/-- C7 counterexample: two preamble lines match the PO-number pattern; the
first line captures "AAA", but the scan returns the last match "BBB". -/
theorem c7_po_number_counterexample :
    linePoAssign [some "PO Number: AAA"] = some "AAA" ∧
    (scanPreamble [[some "PO Number: AAA"], [some "PO Number: BBB"]]).2 = "BBB" ∧
    ("BBB" : String) ≠ "AAA" := by
  refine ⟨by decide, by decide, by decide⟩

/-- C8 (amended): in the preamble scan, a labeled `(client|company)` match
beats the heuristic only on its own line; across lines every assigning
line (labeled capture, or unlabeled candidate with more than two words and
no "po") overwrites the previous value, so the final company is the LAST
assignment in scan order: an unlabeled candidate is retained exactly when
no later line assigns, and it overrides earlier labeled matches. -/
theorem c8_company_last_assignment (rows : List (List (Option String))) :
    (scanPreamble rows).1 = ((rows.filterMap lineCompanyAssign).getLast?).getD "" := by
  rw [scanPreamble, scanPreamble_fst, foldl_optGetD]

/-- C8 counterexample: a labeled match "Company: Acme" on the first line is
overwritten by a later unlabeled heuristic line, both in the raw scan and
after the smart-guard, contradicting "labeled matches always win
regardless of order". -/
theorem c8_company_counterexample :
    (searchAux matchCompanyAt (safeJoin [some "Company: Acme"]).data = some "Acme") ∧
    (scanPreamble [[some "Company: Acme"], [some "Big Steel Works Ltd"]]).1
      = "Big Steel Works Ltd" ∧
    resolveCompany [[some "Company: Acme"], [some "Big Steel Works Ltd"]]
      = "Big Steel Works Ltd" ∧
    ("Big Steel Works Ltd" : String) ≠ "Acme" := by
  refine ⟨by decide, by decide, by decide, by decide⟩

/-! ### Lemmas: header location and the run outcome -/

theorem findHeaderFrom_none (rs : List (List (Option String)))
    (h : ∀ r ∈ rs, headerRowMatches r = false) :
    ∀ n, findHeaderFrom rs n = none := by
  induction rs with
  | nil => intro n; rfl
  | cons r rs ih =>
    intro n
    have hr : headerRowMatches r = false := h r (by simp)
    simp only [findHeaderFrom, hr, Bool.false_eq_true, if_false]
    exact ih (fun t ht => h t (by simp [ht])) (n + 1)

theorem findHeaderFrom_first (rs : List (List (Option String))) :
    ∀ (i n : ℕ), i < rs.length →
      headerRowMatches (rs.getD i []) = true →
      (∀ j, j < i → headerRowMatches (rs.getD j []) = false) →
      findHeaderFrom rs n = some (n + i) := by
  induction rs with
  | nil => intro i n hi; simp at hi
  | cons r rs ih =>
    intro i n hi hmatch hbefore
    cases i with
    | zero =>
      have hr : headerRowMatches r = true := by simpa using hmatch
      simp [findHeaderFrom, hr]
    | succ i' =>
      have hr : headerRowMatches r = false := by
        have := hbefore 0 (Nat.succ_pos i')
        simpa using this
      have hrec : findHeaderFrom rs (n + 1) = some ((n + 1) + i') := by
        apply ih i' (n + 1) (by simpa using hi) (by simpa using hmatch)
        intro j hj
        have := hbefore (j + 1) (by omega)
        simpa using this
      simp only [findHeaderFrom, hr, Bool.false_eq_true, if_false, hrec]
      have heq : (n + 1) + i' = n + (i' + 1) := by omega
      rw [heq]

/-- C1: when no sheet row's joined lower-cased text contains both
"description" and "po" (or "po number"), the run aborts with the fatal
header error and produces no page; when some row matches, the first
matching row index (top to bottom) is located. -/
theorem c1_header_location (meas : ℚ → String → ℚ)
    (sheet : List (List (Option String))) :
    ((∀ row ∈ sheet, headerRowMatches row = false) →
      generatePages meas sheet
        = Except.error "Header row not found (no 'Description' found).") ∧
    (∀ i : ℕ, i < sheet.length →
      headerRowMatches (sheet.getD i []) = true →
      (∀ j, j < i → headerRowMatches (sheet.getD j []) = false) →
      locate_header sheet = some i) := by
  constructor
  · intro h
    have hnone : locate_header sheet = none := findHeaderFrom_none sheet h 0
    rw [generatePages, hnone]
  · intro i hi hm hb
    have := findHeaderFrom_first sheet i 0 hi hm hb
    simpa [locate_header] using this

/-- C1 witness: a sheet with no header row aborts; a sheet whose second
row carries the signature locates index 1. -/
theorem c1_header_location_witness :
    generatePages measZero [[some "hello"], [some "world", none]]
      = Except.error "Header row not found (no 'Description' found)." ∧
    locate_header [[some "acme tools"], [some "Description", some "PO Number", some "Qty"]]
      = some 1 :=
  ⟨(c1_header_location measZero [[some "hello"], [some "world", none]]).1 (by decide),
   (c1_header_location measZero
      [[some "acme tools"], [some "Description", some "PO Number", some "Qty"]]).2
      1 (by decide) (by decide) (by decide)⟩

/-! ### Lemmas: the copy count -/

theorem clampCopies_bounds (q : ℤ) : 1 ≤ clampCopies q ∧ clampCopies q ≤ 500 := by
  simp only [clampCopies]
  split_ifs <;> omega

/-- C5: for every raw quantity string the derived number of copies is an
integer in [1, 500]: empty input yields 1, total parse failure (no float
parse and no digits at all) yields 1, parsed values below 1 are raised to
1, and parsed values above 500 are clamped to 500. -/
theorem c5_copies_clamped (raw q : String) (v : ℚ) :
    (1 ≤ copies_from_raw raw ∧ copies_from_raw raw ≤ 500) ∧
    (pyStrip raw = "" → copies_from_raw raw = 1) ∧
    (pyFloatQ q = none → onlyDigits q = "" → copiesOf q = 1) ∧
    (pyFloatQ q = some v → truncToZero v < 1 → copiesOf q = 1) ∧
    (pyFloatQ q = some v → 500 < truncToZero v → copiesOf q = 500) := by
  refine ⟨clampCopies_bounds _, ?_, ?_, ?_, ?_⟩
  · intro h
    have hfq : fmt_qty raw = "" := by simp [fmt_qty, h]
    rw [copies_from_raw, hfq]
    decide
  · intro hn hd
    by_cases hq : q = ""
    · rw [hq]; decide
    · have hco : copiesOf q = clampCopies 1 := by
        simp [copiesOf, hq, hn, hd]
      rw [hco]; decide
  · intro hp hlt
    have hq : q ≠ "" := by
      intro h
      rw [h] at hp
      have : pyFloatQ "" = none := rfl
      rw [this] at hp
      cases hp
    have hco : copiesOf q = clampCopies (truncToZero v) := by
      simp [copiesOf, hq, hp]
    rw [hco]
    simp only [clampCopies]
    split_ifs <;> omega
  · intro hp hgt
    have hq : q ≠ "" := by
      intro h
      rw [h] at hp
      have : pyFloatQ "" = none := rfl
      rw [this] at hp
      cases hp
    have hco : copiesOf q = clampCopies (truncToZero v) := by
      simp [copiesOf, hq, hp]
    rw [hco]
    simp only [clampCopies]
    split_ifs <;> omega

/-- C5 witness: "12,000" clamps into range, whitespace yields 1, and the
fully unparseable "abc" yields 1. -/
theorem c5_copies_clamped_witness :
    (1 ≤ copies_from_raw "12,000" ∧ copies_from_raw "12,000" ≤ 500) ∧
    copies_from_raw " " = 1 ∧ copiesOf "abc" = 1 :=
  ⟨(c5_copies_clamped "12,000" "abc" 0).1,
   (c5_copies_clamped " " "abc" 0).2.1 (by decide),
   (c5_copies_clamped "12,000" "abc" 0).2.2.1 (by decide) (by decide)⟩

/-! ### C6: empty cleaned description skips the row -/

/-- C6: a data row whose cleaned description strips to empty emits no
page, and removing such a row leaves the pages of all other rows
unchanged (the run continues). -/
theorem c6_empty_description_skipped (meas : ℚ → String → ℚ)
    (company po_number : String) (row : List (String × String))
    (pre post : List (List (String × String)))
    (h : pyStrip (rowCleanDesc row) = "") :
    pagesForRow meas company po_number row = [] ∧
    (pre ++ row :: post).flatMap (pagesForRow meas company po_number)
      = (pre ++ post).flatMap (pagesForRow meas company po_number) := by
  have h1 : pagesForRow meas company po_number row = [] := by
    rw [pagesForRow, if_pos h]
  refine ⟨h1, ?_⟩
  rw [List.flatMap_append, List.flatMap_append, List.flatMap_cons, h1,
    List.nil_append]

/-- C6 witness: a row whose description cell is blank yields no page and
drops out of the page sequence. -/
theorem c6_empty_description_skipped_witness :
    pagesForRow measZero "" "" [("description", "")] = [] ∧
    ([[("qty", "2")]] ++ [("description", "")] :: []).flatMap (pagesForRow measZero "" "")
      = ([[("qty", "2")]] ++ []).flatMap (pagesForRow measZero "" "") :=
  c6_empty_description_skipped measZero "" "" [("description", "")]
    [[("qty", "2")]] [] (by decide)

/-! ### Lemmas: additive measures are monotone over word sublists -/

theorem joinWords_sum (cw : Char → ℚ) :
    ∀ L : List String,
      ((joinWords L).data.map cw).sum
        = (L.map (fun w => ((w.data.map cw).sum))).sum
          + ((L.length - 1 : ℕ) : ℚ) * cw ' ' := by
  intro L
  induction L with
  | nil => simp [joinWords]
  | cons w L ih =>
    cases L with
    | nil => simp [joinWords]
    | cons x ws =>
      rw [joinWords_cons_cons]
      have hsp : (" " : String).data = [' '] := rfl
      have hdata : (w ++ " " ++ joinWords (x :: ws)).data
          = w.data ++ ([' '] ++ (joinWords (x :: ws)).data) := by
        rw [String.data_app, String.data_app, hsp, List.append_assoc]
      rw [hdata, List.map_append, List.sum_append, List.map_append, List.sum_append,
        ih]
      simp only [List.map_cons, List.sum_cons, List.length_cons,
        Nat.add_sub_cancel, List.map_nil, List.sum_nil]
      push_cast
      ring

theorem wordSum_nonneg (cw : Char → ℚ) (hcw : ∀ c, 0 ≤ cw c) (w : String) :
    0 ≤ (w.data.map cw).sum := by
  apply List.sum_nonneg
  intro x hx
  rcases List.mem_map.mp hx with ⟨c, _, rfl⟩
  exact hcw c

theorem joinWords_sum_mono (cw : Char → ℚ) (hcw : ∀ c, 0 ≤ cw c)
    {L' L : List String} (h : L'.Sublist L) :
    ((joinWords L').data.map cw).sum ≤ ((joinWords L).data.map cw).sum := by
  rw [joinWords_sum, joinWords_sum]
  have h1 : (L'.map (fun w => ((w.data.map cw).sum))).sum
      ≤ (L.map (fun w => ((w.data.map cw).sum))).sum := by
    apply List.Sublist.sum_le_sum (h.map _)
    intro a ha
    rcases List.mem_map.mp ha with ⟨u, _, rfl⟩
    exact wordSum_nonneg cw hcw u
  have h2 : ((L'.length - 1 : ℕ) : ℚ) * cw ' ' ≤ ((L.length - 1 : ℕ) : ℚ) * cw ' ' := by
    apply mul_le_mul_of_nonneg_right _ (hcw ' ')
    exact_mod_cast Nat.sub_le_sub_right h.length_le 1
  linarith

theorem fitsOf_swOfChar_subClosed (cw : Char → ℚ) (hcw : ∀ c, 0 ≤ cw c)
    (size width : ℚ) (hsize : 0 ≤ size) :
    SubClosedF (fitsOf (swOfChar cw size) width) := by
  intro L' L hsub hF
  simp only [fitsOf, swOfChar, decide_eq_true_eq] at hF ⊢
  calc ((joinWords L').data.map cw).sum * size
      ≤ ((joinWords L).data.map cw).sum * size :=
        mul_le_mul_of_nonneg_right (joinWords_sum_mono cw hcw hsub) hsize
    _ ≤ width := hF

/-! ### Lemmas: greedy wrapping is optimal (minimal line count)

The key facts behind the monotonicity of the font-size search: for a fit
predicate closed under word sublists, the greedy wrapper produces no more
lines than any feasible partition, and hence wrapping a word-subsequence
never produces more lines. -/

theorem wrapW_restart (F : List String → Bool) (w : String) (ws : List String) :
    wrapW F (w :: ws) [] = wrapW F ws [w] := by
  by_cases hf : F [w] <;> simp [wrapW, hf]

theorem wrapW_tail_bound (F : List String → Bool) :
    ∀ (B cur : List String), cur ≠ [] →
      ∃ B', B'.IsSuffix B ∧ (wrapW F B cur).length ≤ 1 + (wrapW F B' []).length := by
  intro B
  induction B with
  | nil =>
    intro cur hcur
    refine ⟨[], List.suffix_refl [], ?_⟩
    have h2 : cur.isEmpty = false := by simpa [List.isEmpty_iff] using hcur
    simp [wrapW, h2]
  | cons w ws ih =>
    intro cur hcur
    by_cases hf : F (cur ++ [w])
    · obtain ⟨B', hB', hlen⟩ := ih (cur ++ [w]) (by simp)
      refine ⟨B', hB'.trans (List.suffix_cons w ws), ?_⟩
      simpa [wrapW, hf] using hlen
    · have h2 : cur.isEmpty = false := by simpa [List.isEmpty_iff] using hcur
      refine ⟨w :: ws, List.suffix_refl _, ?_⟩
      rw [wrapW_restart]
      simp only [wrapW, hf, Bool.false_eq_true, if_false, h2, List.length_cons]
      omega

theorem wrapW_first_chunk (F : List String → Bool) (hF : SubClosedF F) :
    ∀ (A B cur : List String),
      (F (cur ++ A) = true ∨ (cur = [] ∧ ∃ w, A = [w])) →
      (A = [] → cur ≠ []) →
      ∃ B', B'.IsSuffix B ∧
        (wrapW F (A ++ B) cur).length ≤ 1 + (wrapW F B' []).length := by
  intro A
  induction A with
  | nil =>
    intro B cur hyp hside
    exact wrapW_tail_bound F B cur (hside rfl)
  | cons a A' ih =>
    intro B cur hyp _
    by_cases hf : F (cur ++ [a])
    · have hstep : wrapW F ((a :: A') ++ B) cur = wrapW F (A' ++ B) (cur ++ [a]) := by
        simp [wrapW, hf]
      rw [hstep]
      apply ih B (cur ++ [a]) _ (by simp)
      rcases hyp with hyp | ⟨rfl, w, hw⟩
      · left
        have : (cur ++ [a]) ++ A' = cur ++ (a :: A') := by simp
        rw [this]
        exact hyp
      · left
        have ha : a = w ∧ A' = [] := by
          constructor
          · exact (List.cons_eq_cons.mp hw).1
          · exact (List.cons_eq_cons.mp hw).2
        rw [ha.2]
        simpa using hf
    · rcases hyp with hyp | ⟨rfl, w, hw⟩
      · exfalso
        apply hf
        apply hF (cur ++ [a]) (cur ++ (a :: A')) _ hyp
        apply List.Sublist.append_left
        exact (List.nil_sublist A').cons₂ a
      · have ha : A' = [] := (List.cons_eq_cons.mp hw).2
        subst ha
        have hstep : wrapW F (([a] : List String) ++ B) [] = wrapW F B [a] := by
          rw [List.singleton_append, wrapW_restart]
        rw [List.nil_append] at *
        rw [hstep]
        exact wrapW_tail_bound F B [a] (by simp)

theorem suffix_append_split {α : Type} :
    ∀ (C D V : List α), V.IsSuffix (C ++ D) →
      V.IsSuffix D ∨ ∃ C₂, C₂ ≠ [] ∧ C₂.IsSuffix C ∧ V = C₂ ++ D := by
  intro C
  induction C with
  | nil =>
    intro D V h
    left
    simpa using h
  | cons c C' ih =>
    intro D V h
    rw [List.cons_append, List.suffix_cons_iff] at h
    rcases h with h | h
    · right
      exact ⟨c :: C', by simp, List.suffix_refl _, by simpa using h⟩
    · rcases ih D V h with h' | ⟨C₂, h1, h2, h3⟩
      · left; exact h'
      · right
        exact ⟨C₂, h1, h2.trans (List.suffix_cons c C'), h3⟩

theorem greedy_le_partition (F : List String → Bool) (hF : SubClosedF F) :
    ∀ (P : List (List String)),
      (∀ C ∈ P, C ≠ [] ∧ (F C = true ∨ ∃ w, C = [w])) →
      ∀ V : List String, V.IsSuffix P.flatten →
        (wrapW F V []).length ≤ P.length := by
  intro P
  induction P with
  | nil =>
    intro _ V hV
    have : V = [] := by simpa using hV
    subst this
    simp [wrapW]
  | cons C P' ih =>
    intro hfeas V hV
    rw [List.flatten_cons] at hV
    rcases suffix_append_split C P'.flatten V hV with h | ⟨C₂, hC₂ne, hC₂suf, rfl⟩
    · have := ih (fun D hD => hfeas D (by simp [hD])) V h
      simp only [List.length_cons]
      omega
    · have hCfeas := hfeas C (by simp)
      have hyp : F (([] : List String) ++ C₂) = true ∨
          (([] : List String) = [] ∧ ∃ w, C₂ = [w]) := by
        rcases hCfeas.2 with hFC | ⟨w, rfl⟩
        · left
          rw [List.nil_append]
          exact hF C₂ C hC₂suf.sublist hFC
        · right
          refine ⟨rfl, w, ?_⟩
          rcases hC₂suf with ⟨t, ht⟩
          cases t with
          | nil => simpa using ht
          | cons y ys =>
            exfalso
            have hlen := congrArg List.length ht
            simp at hlen
            exact hC₂ne hlen.2
      obtain ⟨B', hB', hlen⟩ :=
        wrapW_first_chunk F hF C₂ P'.flatten [] hyp (fun h => absurd h hC₂ne)
      have hrec := ih (fun D hD => hfeas D (by simp [hD])) B' hB'
      simp only [List.length_cons]
      omega

theorem sublist_single {α : Type} {l : List α} {a : α} (h : l.Sublist [a]) :
    l = [] ∨ l = [a] := by
  cases h with
  | cons _ h' =>
    left
    exact List.sublist_nil.mp h'
  | cons₂ _ h' =>
    right
    rw [List.sublist_nil.mp h']

theorem sublist_feasible_partition (F : List String → Bool) (hF : SubClosedF F) :
    ∀ (P : List (List String)) (v : List String),
      (∀ C ∈ P, C ≠ [] ∧ (F C = true ∨ ∃ w, C = [w])) →
      v.Sublist P.flatten →
      ∃ Q : List (List String), v = Q.flatten ∧ Q.length ≤ P.length ∧
        (∀ C ∈ Q, C ≠ [] ∧ (F C = true ∨ ∃ w, C = [w])) := by
  intro P
  induction P with
  | nil =>
    intro v _ hv
    have hv0 : v = [] := by simpa using hv
    exact ⟨[], by simp [hv0], by simp, by simp⟩
  | cons C P' ih =>
    intro v hfeas hv
    rw [List.flatten_cons, List.sublist_append_iff] at hv
    obtain ⟨l₁, l₂, rfl, h₁, h₂⟩ := hv
    obtain ⟨Q₂, hQ₂eq, hQ₂len, hQ₂feas⟩ :=
      ih l₂ (fun D hD => hfeas D (by simp [hD])) h₂
    by_cases hl₁ : l₁ = []
    · subst hl₁
      refine ⟨Q₂, by simpa using hQ₂eq, ?_, hQ₂feas⟩
      simp only [List.length_cons]
      omega
    · refine ⟨l₁ :: Q₂, by simp [hQ₂eq], by simp only [List.length_cons]; omega, ?_⟩
      intro D hD
      rcases List.mem_cons.mp hD with rfl | hD
      · refine ⟨hl₁, ?_⟩
        rcases (hfeas C (by simp)).2 with hFC | ⟨w, rfl⟩
        · left
          exact hF D C h₁ hFC
        · right
          rcases sublist_single h₁ with h | h
          · exact absurd h hl₁
          · exact ⟨w, h⟩
      · exact hQ₂feas D hD

theorem greedy_count_mono (F : List String → Bool) (hF : SubClosedF F)
    {ws' ws : List String} (h : ws'.Sublist ws) :
    (wrapW F ws' []).length ≤ (wrapW F ws []).length := by
  have hfeas : ∀ C ∈ wrapW F ws [], C ≠ [] ∧ (F C = true ∨ ∃ w, C = [w]) := by
    intro C hC
    exact ⟨wrapW_chunk_ne_nil F ws [] C hC,
      wrapW_chunk_fits F ws [] (Or.inl rfl) C hC⟩
  have hflat : (wrapW F ws []).flatten = ws := by
    simpa using wrapW_flatten F ws []
  obtain ⟨Q, hQeq, hQlen, hQfeas⟩ :=
    sublist_feasible_partition F hF (wrapW F ws []) ws' hfeas (by rw [hflat]; exact h)
  have hle := greedy_le_partition F hF Q hQfeas ws' (hQeq ▸ List.suffix_refl _)
  omega

theorem wrap_count_mono (cw : Char → ℚ) (hcw : ∀ c, 0 ≤ cw c)
    (size width : ℚ) (hsize : 0 ≤ size) {t' t : String}
    (h : (wordsOf t').Sublist (wordsOf t)) :
    (wrap_text (swOfChar cw size) width t').length
      ≤ (wrap_text (swOfChar cw size) width t).length := by
  rw [wrap_text_eq_wrapW, wrap_text_eq_wrapW, List.length_map, List.length_map]
  exact greedy_count_mono _ (fitsOf_swOfChar_subClosed cw hcw size width hsize) h

theorem sizeSearch_mono (p q : ℚ → Bool) (l : List ℚ)
    (hsort : List.Pairwise (fun a b : ℚ => b ≤ a) l)
    (hmin : ∀ s ∈ l, min_size ≤ s)
    (himp : ∀ s ∈ l, p s = true → q s = true) :
    sizeSearch p l ≤ sizeSearch q l := by
  induction l with
  | nil => exact le_refl _
  | cons s rest ih =>
    rw [List.pairwise_cons] at hsort
    by_cases hp : p s
    · have hq := himp s (by simp) hp
      simp [sizeSearch, hp, hq]
    · have hlp : sizeSearch p (s :: rest) = sizeSearch p rest := by
        simp [sizeSearch, hp]
      rw [hlp]
      by_cases hq : q s
      · have hrq : sizeSearch q (s :: rest) = s := by simp [sizeSearch, hq]
        rw [hrq]
        rcases sizeSearch_eq_min_or_mem p rest with h | h
        · rw [h]
          exact hmin s (by simp)
        · exact hsort.1 _ h
      · have hrq : sizeSearch q (s :: rest) = sizeSearch q rest := by
          simp [sizeSearch, hq]
        rw [hrq]
        exact ih hsort.2 (fun t ht => hmin t (by simp [ht]))
          (fun t ht => himp t (by simp [ht]))

theorem totalHeightAt_mono (cw : Char → ℚ) (hcw : ∀ c, 0 ≤ cw c)
    (availW : ℚ) (nH nF : ℕ) (desc desc' remarks remarks' : String)
    (hd : (wordsOf desc').Sublist (wordsOf desc))
    (hr : pyStrip remarks' = "" ∨
      (pyStrip remarks ≠ "" ∧
        (wordsOf ("Remarks: " ++ remarks')).Sublist (wordsOf ("Remarks: " ++ remarks))))
    (s : ℚ) (hs : 0 ≤ s) :
    totalHeightAt (swOfChar cw) availW nH nF desc' remarks' s
      ≤ totalHeightAt (swOfChar cw) availW nH nF desc remarks s := by
  have hdlen : (wrap_text (swOfChar cw s) availW desc').length
      ≤ (wrap_text (swOfChar cw s) availW desc).length :=
    wrap_count_mono cw hcw s availW hs hd
  have hrlen :
      (if pyStrip remarks' ≠ "" then
        wrap_text (swOfChar cw s) availW ("Remarks: " ++ remarks') else []).length
      ≤ (if pyStrip remarks ≠ "" then
        wrap_text (swOfChar cw s) availW ("Remarks: " ++ remarks) else []).length := by
    rcases hr with h | ⟨h1, h2⟩
    · simp [h]
    · rw [if_pos h1]
      by_cases h' : pyStrip remarks' = ""
      · simp [h']
      · rw [if_pos h']
        exact wrap_count_mono cw hcw s availW hs h2
  simp only [totalHeightAt]
  have hsum : nH + (wrap_text (swOfChar cw s) availW desc').length + nF
      + (if pyStrip remarks' ≠ "" then
          wrap_text (swOfChar cw s) availW ("Remarks: " ++ remarks') else []).length
      ≤ nH + (wrap_text (swOfChar cw s) availW desc).length + nF
      + (if pyStrip remarks ≠ "" then
          wrap_text (swOfChar cw s) availW ("Remarks: " ++ remarks) else []).length := by
    omega
  have hcast : ((nH + (wrap_text (swOfChar cw s) availW desc').length + nF
      + (if pyStrip remarks' ≠ "" then
          wrap_text (swOfChar cw s) availW ("Remarks: " ++ remarks') else []).length : ℕ) : ℚ)
      ≤ ((nH + (wrap_text (swOfChar cw s) availW desc).length + nF
      + (if pyStrip remarks ≠ "" then
          wrap_text (swOfChar cw s) availW ("Remarks: " ++ remarks) else []).length : ℕ) : ℚ) :=
    Nat.cast_le.mpr hsum
  apply mul_le_mul_of_nonneg_right _ (by norm_num [SPACING] : (0:ℚ) ≤ SPACING)
  exact mul_le_mul_of_nonneg_right hcast hs

/-- C9: the font-size search is monotone in content.  With the additive
non-negative per-character font metric, a label whose description and
remark words form a subsequence of another label's (same header and
footer line counts, same width and height budgets) never selects a
strictly smaller font size: the longer label's chosen size is a lower
bound for the shorter label's. -/
theorem c9_font_size_monotone (cw : Char → ℚ) (hcw : ∀ c, 0 ≤ cw c)
    (availW : ℚ) (nH nF : ℕ) (desc desc' remarks remarks' : String) (labelH : ℚ)
    (hd : (wordsOf desc').Sublist (wordsOf desc))
    (hr : pyStrip remarks' = "" ∨
      (pyStrip remarks ≠ "" ∧
        (wordsOf ("Remarks: " ++ remarks')).Sublist (wordsOf ("Remarks: " ++ remarks)))) :
    chooseFontSize (swOfChar cw) availW nH nF desc remarks labelH
      ≤ chooseFontSize (swOfChar cw) availW nH nF desc' remarks' labelH := by
  rw [chooseFontSize, chooseFontSize]
  apply sizeSearch_mono _ _ candidateSizes candidateSizes_sorted candidateSizes_min_le
  intro s hs hfit
  rw [decide_eq_true_eq] at hfit ⊢
  have h0s : (0:ℚ) ≤ s :=
    le_trans (by norm_num [min_size]) (candidateSizes_min_le s hs)
  exact le_trans
    (totalHeightAt_mono cw hcw availW nH nF desc desc' remarks remarks' hd hr s h0s)
    hfit

/-- C9 witness: dropping a word from the description never shrinks the
chosen size. -/
theorem c9_font_size_monotone_witness :
    chooseFontSize (swOfChar (fun _ => 0)) availableWidth 2 3 "ab cd" "" BASE_LABEL_H
      ≤ chooseFontSize (swOfChar (fun _ => 0)) availableWidth 2 3 "ab" "" BASE_LABEL_H :=
  c9_font_size_monotone (fun _ => 0) (fun _ => le_refl 0) availableWidth 2 3
    "ab cd" "ab" "" "" BASE_LABEL_H (by decide) (Or.inl (by decide))

/-! ### Lemmas: decimal digits, rendering and parsing (for C10) -/

theorem takeWhile_append_all {α : Type} (p : α → Bool) (l₁ l₂ : List α)
    (h : ∀ x ∈ l₁, p x = true) :
    (l₁ ++ l₂).takeWhile p = l₁ ++ l₂.takeWhile p := by
  induction l₁ with
  | nil => simp
  | cons a l ih =>
    rw [List.cons_append, List.takeWhile_cons, if_pos (h a (by simp)),
      ih (fun x hx => h x (by simp [hx])), List.cons_append]

theorem dropWhile_append_all {α : Type} (p : α → Bool) (l₁ l₂ : List α)
    (h : ∀ x ∈ l₁, p x = true) :
    (l₁ ++ l₂).dropWhile p = l₂.dropWhile p := by
  induction l₁ with
  | nil => simp
  | cons a l ih =>
    rw [List.cons_append, List.dropWhile_cons, if_pos (h a (by simp))]
    exact ih (fun x hx => h x (by simp [hx]))

theorem digitChar_isDigit (d : ℕ) : (digitChar d).isDigit = true := by
  unfold digitChar
  split <;> decide

theorem digitVal_digitChar {d : ℕ} (h : d < 10) : digitVal (digitChar d) = d := by
  interval_cases d <;> decide

theorem natDecAux_digits : ∀ (f n : ℕ), ∀ c ∈ natDecAux f n, c.isDigit = true := by
  intro f
  induction f with
  | zero => intro n c hc; simp [natDecAux] at hc
  | succ f ih =>
    intro n c hc
    rw [natDecAux] at hc
    by_cases hn : n = 0
    · simp [hn] at hc
    · rw [if_neg hn] at hc
      rcases List.mem_cons.mp hc with rfl | hc
      · exact digitChar_isDigit _
      · exact ih (n / 10) c hc

theorem valLE_natDecAux : ∀ (f n : ℕ), n ≤ f →
    (natDecAux f n).foldr (fun c a => 10 * a + digitVal c) 0 = n := by
  intro f
  induction f with
  | zero => intro n hn; interval_cases n; rfl
  | succ f ih =>
    intro n hn
    rw [natDecAux]
    by_cases hn0 : n = 0
    · simp [hn0]
    · rw [if_neg hn0, List.foldr_cons]
      have hdiv : n / 10 ≤ f := by
        have h1 : n / 10 < n := Nat.div_lt_self (Nat.pos_of_ne_zero hn0) (by omega)
        omega
      rw [ih (n / 10) hdiv, digitVal_digitChar (Nat.mod_lt n (by omega))]
      omega

theorem digitsVal_reverse (l : List Char) :
    digitsVal l.reverse = l.foldr (fun c a => 10 * a + digitVal c) 0 := by
  rw [digitsVal, List.foldl_reverse]

theorem natDecimal_val {n : ℕ} (hn : n ≠ 0) : digitsVal (natDecimal n).data = n := by
  rw [natDecimal, if_neg hn]
  show digitsVal (natDecAux n n).reverse = n
  rw [digitsVal_reverse]
  exact valLE_natDecAux n n (le_refl n)

theorem natDecimal_digits (n : ℕ) : ∀ c ∈ (natDecimal n).data, c.isDigit = true := by
  rw [natDecimal]
  by_cases hn : n = 0
  · rw [if_pos hn]
    intro c hc
    simp at hc
    subst hc
    decide
  · rw [if_neg hn]
    intro c hc
    exact natDecAux_digits n n c (by simpa using hc)

theorem natDecimal_ne_nil (n : ℕ) : (natDecimal n).data ≠ [] := by
  rw [natDecimal]
  by_cases hn : n = 0
  · rw [if_pos hn]; simp
  · rw [if_neg hn]
    show (natDecAux n n).reverse ≠ []
    cases hf : n with
    | zero => exact absurd hf hn
    | succ f =>
      rw [natDecAux, if_neg (by omega)]
      simp

theorem digitsVal_zeros_foldl : ∀ (z a : ℕ),
    List.foldl (fun a c => 10 * a + digitVal c) a (List.replicate z '0') = a * 10 ^ z := by
  intro z
  induction z with
  | zero => intro a; simp [pow_zero]
  | succ z ih =>
    intro a
    rw [List.replicate_succ, List.foldl_cons, ih]
    have h0 : digitVal '0' = 0 := by decide
    rw [h0]
    ring

theorem digitsVal_append (a b : List Char) :
    digitsVal (a ++ b) = List.foldl (fun a c => 10 * a + digitVal c) (digitsVal a) b := by
  rw [digitsVal, digitsVal, List.foldl_append]

theorem digitsVal_replicate_zero_append (z : ℕ) (l : List Char) :
    digitsVal (List.replicate z '0' ++ l) = digitsVal l := by
  rw [digitsVal_append]
  have h0 : digitsVal (List.replicate z '0') = 0 := by
    rw [digitsVal, digitsVal_zeros_foldl]
    ring
  rw [h0]
  rfl

theorem digitsVal_append_zeros (l : List Char) (z : ℕ) :
    digitsVal (l ++ List.replicate z '0') = digitsVal l * 10 ^ z := by
  rw [digitsVal_append]
  exact digitsVal_zeros_foldl z (digitsVal l)

theorem strip_zeros_decomp (l : List Char) :
    l = ((l.reverse.dropWhile (fun c => c = '0')).reverse)
      ++ List.replicate ((l.reverse.takeWhile (fun c => c = '0')).length) '0' := by
  conv_lhs => rw [← List.reverse_reverse l,
    ← List.takeWhile_append_dropWhile (fun c : Char => c = '0') l.reverse]
  rw [List.reverse_append]
  congr 1
  rw [List.eq_replicate]
  refine ⟨by rw [List.length_reverse], ?_⟩
  intro b hb
  rw [List.mem_reverse] at hb
  simpa using List.mem_takeWhile_imp hb

theorem pyExpPart_shape (neg : Bool) (m : ℕ) (e1 : ℤ) :
    ∀ (l : List Char) (v : ℚ), pyExpPart neg m e1 l = some v →
      ∃ e : ℤ, v = pyVal neg m e := by
  intro l v h
  cases l with
  | nil => exact ⟨e1, (Option.some.inj h).symm⟩
  | cons c r3 =>
    simp only [pyExpPart] at h
    split_ifs at h
    all_goals cases h
    all_goals exact ⟨_, rfl⟩

theorem pyFloatQ_shape (s : String) (v : ℚ) (h : pyFloatQ s = some v) :
    ∃ (neg : Bool) (m : ℕ) (e : ℤ), v = pyVal neg m e := by
  simp only [pyFloatQ] at h
  split at h
  · cases h
  · exact ⟨_, _, pyExpPart_shape _ _ _ _ v h⟩

theorem pyVal_shape (neg : Bool) (m : ℕ) (e : ℤ) :
    ∃ (z : ℤ) (k : ℕ), pyVal neg m e = (z : ℚ) / 10 ^ k := by
  obtain ⟨n, hn | hn⟩ := e.eq_nat_or_neg
  · subst hn
    refine ⟨(if neg then -1 else 1) * m * 10 ^ n, 0, ?_⟩
    rw [pyVal, zpow_natCast]
    push_cast
    by_cases hneg : neg <;> simp [hneg] <;> ring
  · subst hn
    refine ⟨(if neg then -1 else 1) * m, n, ?_⟩
    rw [pyVal, zpow_neg, zpow_natCast]
    push_cast
    by_cases hneg : neg <;> simp [hneg] <;> ring

theorem den_dvd_pow_ten (v : ℚ) (z : ℤ) (k : ℕ) (h : v = (z : ℚ) / 10 ^ k) :
    (v.den : ℕ) ∣ 10 ^ k := by
  have h1 : v = Rat.divInt z (10 ^ k) := by
    rw [Rat.divInt_eq_div, h]
    push_cast
    ring
  have h2 := Rat.den_dvd z ((10 : ℤ) ^ k)
  rw [← h1] at h2
  have h3 : ((10 : ℤ)) ^ k = ((10 ^ k : ℕ) : ℤ) := by push_cast; ring
  rw [h3] at h2
  exact_mod_cast h2

theorem pow10exp_dvd (d : ℕ) (hd : d ≠ 0) (k0 : ℕ) (h : d ∣ 10 ^ k0) :
    ∃ k, pow10exp d = some k ∧ d ∣ 10 ^ k := by
  have hdec : (10 : ℕ) ^ k0 = 2 ^ k0 * 5 ^ k0 := by
    rw [← Nat.mul_pow]
  rw [hdec] at h
  obtain ⟨d1, d2, hd1, hd2, hd12⟩ := exists_dvd_and_dvd_of_dvd_mul h
  obtain ⟨a, _, rfl⟩ := (Nat.dvd_prime_pow Nat.prime_two).mp hd1
  obtain ⟨b, _, rfl⟩ := (Nat.dvd_prime_pow Nat.prime_five).mp hd2
  have ha : a ≤ d := by
    have h1 : a < 2 ^ a := Nat.lt_two_pow a
    have h2 : 2 ^ a ≤ 2 ^ a * 5 ^ b := Nat.le_mul_of_pos_right _ (pow_pos (by omega) b)
    omega
  have hb : b ≤ d := by
    have h1 : b < 5 ^ b := Nat.lt_pow_self (by omega) b
    have h2 : 5 ^ b ≤ 2 ^ a * 5 ^ b := Nat.le_mul_of_pos_left _ (pow_pos (by omega) a)
    omega
  have hjd : max a b ≤ d := by omega
  have hdvdj : d ∣ 10 ^ max a b := by
    rw [hd12, show (10 : ℕ) ^ max a b = 2 ^ max a b * 5 ^ max a b from by rw [← Nat.mul_pow]]
    exact Nat.mul_dvd_mul (pow_dvd_pow 2 (le_max_left a b)) (pow_dvd_pow 5 (le_max_right a b))
  have hsome : (pow10exp d).isSome = true := by
    rw [pow10exp, List.find?_isSome]
    refine ⟨max a b, List.mem_range.mpr (by omega), ?_⟩
    simp [Nat.dvd_iff_mod_eq_zero.mp hdvdj]
  obtain ⟨k, hk⟩ := Option.isSome_iff_exists.mp hsome
  refine ⟨k, hk, ?_⟩
  have := List.find?_some hk
  rw [Nat.dvd_iff_mod_eq_zero]
  simpa using this

theorem String.data_mk (l : List Char) : (String.mk l).data = l := rfl

theorem takeWhile_all {α : Type} (p : α → Bool) (l : List α)
    (h : ∀ x ∈ l, p x = true) : l.takeWhile p = l := by
  have := takeWhile_append_all p l [] h
  simpa using this

theorem dropWhile_all {α : Type} (p : α → Bool) (l : List α)
    (h : ∀ x ∈ l, p x = true) : l.dropWhile p = [] := by
  have := dropWhile_append_all p l [] h
  simpa using this

theorem readSign_of_digit {c : Char} (hc : c.isDigit = true) (l : List Char) :
    readSign (c :: l) = (false, c :: l) := by
  have h1 : c ≠ '+' := by intro h; rw [h] at hc; exact absurd hc (by decide)
  have h2 : c ≠ '-' := by intro h; rw [h] at hc; exact absurd hc (by decide)
  simp [readSign, h1, h2]

theorem readSign_minus (l : List Char) : readSign ('-' :: l) = (true, l) := by
  simp [readSign]

theorem isDigit_not_ws {c : Char} (h : c.isDigit = true) : c.isWhitespace = false := by
  by_contra hw
  rw [Bool.not_eq_false] at hw
  simp [Char.isWhitespace] at hw
  rcases hw with ((h1 | h1) | h1) | h1 <;> (subst h1; exact absurd h (by decide))

theorem dropWhile_ws_cons {c : Char} (hc : c.isWhitespace = false) (l : List Char) :
    (c :: l).dropWhile Char.isWhitespace = c :: l := by
  rw [List.dropWhile_cons, if_neg]
  simp [hc]

/-- Parsing a positive rendered numeral `ip.fp` recovers its exact value. -/
theorem pyFloatQ_digits_pos (ip fp : List Char)
    (hip : ∀ c ∈ ip, c.isDigit = true) (hfp : ∀ c ∈ fp, c.isDigit = true)
    (hipne : ip ≠ []) :
    pyFloatQ ⟨ip ++ '.' :: fp⟩
      = some (pyVal false (digitsVal (ip ++ fp.takeWhile Char.isDigit))
          (-((fp.takeWhile Char.isDigit).length : ℤ))) := by
  obtain ⟨c0, ip', rfl⟩ : ∃ c0 ip', ip = c0 :: ip' := by
    cases ip with
    | nil => exact absurd rfl hipne
    | cons a b => exact ⟨a, b, rfl⟩
  have hc0 : c0.isDigit = true := hip c0 (by simp)
  have hdw : ((c0 :: ip') ++ '.' :: fp).dropWhile Char.isWhitespace
      = (c0 :: ip') ++ '.' :: fp := by
    rw [List.cons_append]
    exact dropWhile_ws_cons (isDigit_not_ws hc0) _
  have hrs : readSign ((c0 :: ip') ++ '.' :: fp) = (false, (c0 :: ip') ++ '.' :: fp) := by
    rw [List.cons_append]
    exact readSign_of_digit hc0 _
  have htw : ((c0 :: ip') ++ '.' :: fp).takeWhile Char.isDigit = c0 :: ip' := by
    rw [takeWhile_append_all _ _ _ hip, List.takeWhile_cons, if_neg (by decide)]
    simp
  have hdw2 : ((c0 :: ip') ++ '.' :: fp).dropWhile Char.isDigit = '.' :: fp := by
    rw [dropWhile_append_all _ _ _ hip, List.dropWhile_cons, if_neg (by decide)]
  have hfrac : pyFracPart ('.' :: fp)
      = (fp.takeWhile Char.isDigit, fp.dropWhile Char.isDigit) := rfl
  have hdwfp : fp.dropWhile Char.isDigit = [] := dropWhile_all _ _ hfp
  simp only [pyFloatQ, String.data_mk, hdw, hrs, htw, hdw2, hfrac, hdwfp]
  rw [if_neg (by simp)]
  rfl

/-- Parsing a negative rendered numeral `-ip.fp` recovers its exact value. -/
theorem pyFloatQ_digits_neg (ip fp : List Char)
    (hip : ∀ c ∈ ip, c.isDigit = true) (hfp : ∀ c ∈ fp, c.isDigit = true)
    (hipne : ip ≠ []) :
    pyFloatQ ⟨'-' :: (ip ++ '.' :: fp)⟩
      = some (pyVal true (digitsVal (ip ++ fp.takeWhile Char.isDigit))
          (-((fp.takeWhile Char.isDigit).length : ℤ))) := by
  have hdw : ('-' :: (ip ++ '.' :: fp)).dropWhile Char.isWhitespace
      = '-' :: (ip ++ '.' :: fp) :=
    dropWhile_ws_cons (by decide) _
  have hrs : readSign ('-' :: (ip ++ '.' :: fp)) = (true, ip ++ '.' :: fp) :=
    readSign_minus _
  have htw : (ip ++ '.' :: fp).takeWhile Char.isDigit = ip := by
    rw [takeWhile_append_all _ _ _ hip, List.takeWhile_cons, if_neg (by decide)]
    simp
  have hdw2 : (ip ++ '.' :: fp).dropWhile Char.isDigit = '.' :: fp := by
    rw [dropWhile_append_all _ _ _ hip, List.dropWhile_cons, if_neg (by decide)]
  have hfrac : pyFracPart ('.' :: fp)
      = (fp.takeWhile Char.isDigit, fp.dropWhile Char.isDigit) := rfl
  have hdwfp : fp.dropWhile Char.isDigit = [] := dropWhile_all _ _ hfp
  have hipE : ip.isEmpty = false := by simpa [List.isEmpty_iff] using hipne
  simp only [pyFloatQ, String.data_mk, hdw, hrs, htw, hdw2, hfrac, hdwfp]
  rw [if_neg (by simp [hipE])]
  rfl

/-- Rendering a scaled integer `t` over `10^k` and re-parsing recovers the
exact value (`t` not a multiple of `10^k`, so a fractional part remains). -/
theorem pyFloatQ_renderDigits (t : ℤ) (k : ℕ) (ht0 : t ≠ 0)
    (hnotdiv : ¬ ((10:ℤ)^k ∣ t)) :
    renderDigits t k ≠ "" ∧
    pyFloatQ (renderDigits t k) = some ((t : ℚ) / 10 ^ k) := by
  simp only [renderDigits]
  set sN := natDecimal t.natAbs with hsN
  set ds := List.replicate (k + 1 - sN.data.length) '0' ++ sN.data with hds
  set ip := ds.take (ds.length - k) with hipdef
  set fp0 := ds.drop (ds.length - k) with hfp0def
  set fp := (fp0.reverse.dropWhile (fun c => c = '0')).reverse with hfpdef
  have hM0 : t.natAbs ≠ 0 := Int.natAbs_ne_zero.mpr ht0
  have hdsval : digitsVal ds = t.natAbs := by
    rw [hds, digitsVal_replicate_zero_append, hsN, natDecimal_val hM0]
  have hdsdig : ∀ c ∈ ds, c.isDigit = true := by
    intro c hc
    rw [hds] at hc
    rcases List.mem_append.mp hc with hc | hc
    · rw [List.eq_of_mem_replicate hc]; decide
    · rw [hsN] at hc; exact natDecimal_digits _ c hc
  have hdslen : k + 1 ≤ ds.length := by
    rw [hds]
    simp only [List.length_append, List.length_replicate]
    have h1 : 0 < sN.data.length :=
      List.length_pos.mpr (by rw [hsN]; exact natDecimal_ne_nil _)
    omega
  have hipfp0 : ip ++ fp0 = ds := by
    rw [hipdef, hfp0def]; exact List.take_append_drop _ _
  have hiplen : ip.length = ds.length - k := by
    rw [hipdef, List.length_take]
    omega
  have hipne : ip ≠ [] := by
    intro h0
    have h1 := congrArg List.length h0
    rw [hiplen] at h1
    simp at h1
    omega
  have hfp0len : fp0.length = k := by rw [hfp0def, List.length_drop]; omega
  obtain ⟨z, hfp0decomp⟩ : ∃ z, fp0 = fp ++ List.replicate z '0' :=
    ⟨_, by rw [hfpdef]; exact strip_zeros_decomp fp0⟩
  have hzk : fp.length + z = k := by
    have h1 := congrArg List.length hfp0decomp
    rw [hfp0len] at h1
    simp only [List.length_append, List.length_replicate] at h1
    omega
  have hval : t.natAbs = digitsVal (ip ++ fp) * 10 ^ z := by
    rw [← hdsval, ← hipfp0, hfp0decomp, ← List.append_assoc, digitsVal_append_zeros]
  have hfpne : fp ≠ [] := by
    intro h0
    apply hnotdiv
    rw [h0] at hzk
    simp at hzk
    rw [h0, List.append_nil] at hval
    have h1 : (10:ℕ)^k ∣ t.natAbs := by
      rw [hval, hzk]
      exact dvd_mul_left _ _
    have h2 : (10:ℤ)^k ∣ (t.natAbs : ℤ) := by exact_mod_cast h1
    rw [Int.dvd_natAbs] at h2
    exact h2
  have hfpdig : ∀ c ∈ fp, c.isDigit = true := by
    intro c hc
    apply hdsdig
    rw [← hipfp0]
    exact List.mem_append_right _ (by rw [hfp0decomp]; exact List.mem_append_left _ hc)
  have hipdig : ∀ c ∈ ip, c.isDigit = true := by
    intro c hc
    apply hdsdig
    rw [← hipfp0]
    exact List.mem_append_left _ hc
  have hfpE : fp.isEmpty = false := by simpa [List.isEmpty_iff] using hfpne
  have hfptw : fp.takeWhile Char.isDigit = fp := takeWhile_all _ _ hfpdig
  have hQ1 : ((t.natAbs : ℕ) : ℚ) = (digitsVal (ip ++ fp) : ℚ) * 10 ^ z := by
    exact_mod_cast congrArg (fun n : ℕ => (n:ℚ)) hval
  have h10 : (10:ℚ)^k = 10^(fp.length) * 10^z := by
    rw [← pow_add]
    congr 1
    omega
  simp only [hfpE, Bool.false_eq_true, if_false]
  by_cases hneg : t < 0
  · rw [if_pos hneg]
    have hstr : ("-" ++ (⟨ip⟩:String) ++ ("." ++ (⟨fp⟩:String)))
        = (⟨'-' :: (ip ++ '.' :: fp)⟩ : String) := by
      apply String.ext
      simp [String.data_app, String.data_mk]
    rw [hstr]
    constructor
    · intro h0
      have := congrArg String.data h0
      simp [String.data_mk] at this
    · rw [pyFloatQ_digits_neg ip fp hipdig hfpdig hipne, hfptw]
      congr 1
      have habs : (t.natAbs : ℤ) = -t := by
        rw [← Int.abs_eq_natAbs, abs_of_neg hneg]
      have hQ2 : ((t : ℤ) : ℚ) = -((digitsVal (ip ++ fp) : ℚ) * 10 ^ z) := by
        have h4 : ((t.natAbs : ℤ) : ℚ) = -((t : ℤ) : ℚ) := by
          rw [habs]; push_cast; ring
        have h5 : ((t.natAbs : ℤ) : ℚ) = ((t.natAbs : ℕ) : ℚ) := Int.cast_natCast _
        rw [h5, hQ1] at h4
        linarith
      rw [pyVal, if_pos rfl, zpow_neg, zpow_natCast, hQ2, h10]
      have h1 : (10:ℚ)^(fp.length) ≠ 0 := by positivity
      have h2 : (10:ℚ)^z ≠ 0 := by positivity
      field_simp
      ring
  · rw [if_neg hneg]
    have hstr : ("" ++ (⟨ip⟩:String) ++ ("." ++ (⟨fp⟩:String)))
        = (⟨ip ++ '.' :: fp⟩ : String) := by
      apply String.ext
      simp [String.data_app, String.data_mk]
    rw [hstr]
    constructor
    · intro h0
      have h1 := congrArg String.data h0
      simp [String.data_mk] at h1
    · rw [pyFloatQ_digits_pos ip fp hipdig hfpdig hipne, hfptw]
      congr 1
      have habs : (t.natAbs : ℤ) = t := Int.natAbs_of_nonneg (not_lt.mp hneg)
      have hQ2 : ((t : ℤ) : ℚ) = (digitsVal (ip ++ fp) : ℚ) * 10 ^ z := by
        have h4 : ((t.natAbs : ℤ) : ℚ) = ((t : ℤ) : ℚ) := by rw [habs]
        have h5 : ((t.natAbs : ℤ) : ℚ) = ((t.natAbs : ℕ) : ℚ) := Int.cast_natCast _
        rw [h5, hQ1] at h4
        linarith
      rw [pyVal, if_neg (by simp), zpow_neg, zpow_natCast, hQ2, h10]
      have h1 : (10:ℚ)^(fp.length) ≠ 0 := by positivity
      have h2 : (10:ℚ)^z ≠ 0 := by positivity
      field_simp
      ring

/-- For a non-integral rational whose denominator divides a power of ten,
`renderDec` produces a nonempty string that re-parses to exactly the same
value. -/
theorem renderDec_roundtrip (v : ℚ) (hden : v.den ≠ 1) (k0 : ℕ)
    (hk0 : v.den ∣ 10 ^ k0) :
    renderDec v ≠ "" ∧ pyFloatQ (renderDec v) = some v := by
  obtain ⟨k, hk, hdvd⟩ := pow10exp_dvd v.den v.den_nz k0 hk0
  set t := v.num * (10:ℤ)^k / (v.den : ℤ) with htdef
  have hdvdZ : (v.den : ℤ) ∣ v.num * (10:ℤ)^k := by
    have h1 : ((v.den : ℕ) : ℤ) ∣ ((10 ^ k : ℕ) : ℤ) := Int.natCast_dvd_natCast.mpr hdvd
    exact Dvd.dvd.mul_left (by exact_mod_cast h1) v.num
  have ht : t * (v.den : ℤ) = v.num * 10 ^ k := Int.ediv_mul_cancel hdvdZ
  have hden0 : ((v.den : ℕ) : ℚ) ≠ 0 := Nat.cast_ne_zero.mpr v.den_nz
  have h2 : (10:ℚ)^k ≠ 0 := by positivity
  have hvt : v = (t : ℚ) / 10 ^ k := by
    have h1 : ((t * (v.den:ℤ) : ℤ) : ℚ) = ((v.num * 10^k : ℤ) : ℚ) := by
      exact_mod_cast congrArg (fun z : ℤ => (z:ℚ)) ht
    push_cast at h1
    rw [← Rat.num_div_den v, div_eq_div_iff hden0 h2]
    linarith
  have ht0 : t ≠ 0 := by
    intro h0
    rw [h0] at hvt
    simp at hvt
    exact hden (by rw [hvt]; rfl)
  have hnotdiv : ¬ ((10:ℤ)^k ∣ t) := by
    intro hdv
    apply hden
    obtain ⟨c, hc⟩ := hdv
    have hvc : v = (c : ℚ) := by
      rw [hvt, hc]
      push_cast
      field_simp
    rw [hvc]
    exact Rat.den_intCast c
  obtain ⟨hne, hparse⟩ := pyFloatQ_renderDigits t k ht0 hnotdiv
  have hrd : renderDec v = renderDigits t k := by
    rw [renderDec, hk]
  refine ⟨by rw [hrd]; exact hne, ?_⟩
  rw [hrd, hparse, ← hvt]

/-- C10: for every raw quantity string whose stripped, de-comma'd form
parses as a non-integral decimal (`den ≠ 1`), the derived number of copies
is the parsed value truncated toward zero (floor for nonnegative values,
ceiling for negative ones), then clamped to [1, 500]; e.g. "7.9" yields 7
copies, never 8. -/
theorem c10_fractional_truncation (raw : String) (v : ℚ)
    (hp : pyFloatQ (removeCommas (pyStrip raw)) = some v) (hden : v.den ≠ 1) :
    copies_from_raw raw = clampCopies (truncToZero v) ∧
    (0 ≤ v → truncToZero v = ⌊v⌋) ∧ (v < 0 → truncToZero v = ⌈v⌉) := by
  have hq : pyStrip raw ≠ "" := by
    intro h0
    rw [h0] at hp
    have h1 : pyFloatQ (removeCommas "") = none := by decide
    rw [h1] at hp
    cases hp
  obtain ⟨neg, m, e, hv⟩ := pyFloatQ_shape _ v hp
  obtain ⟨z, k0, hzk⟩ := pyVal_shape neg m e
  have hk0 : (v.den : ℕ) ∣ 10 ^ k0 := den_dvd_pow_ten v z k0 (hv.trans hzk)
  obtain ⟨hne, hrt⟩ := renderDec_roundtrip v hden k0 hk0
  have hfmt : fmt_qty raw = renderDec v := by
    simp only [fmt_qty, hp, if_neg hq, if_neg hden]
  refine ⟨?_, fun h => by rw [truncToZero, if_pos h],
    fun h => by rw [truncToZero, if_neg (not_le.mpr h)]⟩
  rw [copies_from_raw, hfmt]
  simp only [copiesOf, if_neg hne, hrt]

/-- Witness for C10 at raw input "7.9": it parses to 79/10 (a non-integral
value), and the derived copies equal truncation-then-clamp, concretely 7. -/
theorem c10_fractional_truncation_witness :
    pyFloatQ (removeCommas (pyStrip "7.9")) = some (Rat.divInt 79 10) ∧
    (Rat.divInt 79 10).den ≠ 1 ∧
    copies_from_raw "7.9" = clampCopies (truncToZero (Rat.divInt 79 10)) ∧
    copies_from_raw "7.9" = 7 := by
  have hstr : removeCommas (pyStrip "7.9") = (⟨['7'] ++ '.' :: ['9']⟩ : String) := by
    decide
  have hp0 := pyFloatQ_digits_pos ['7'] ['9'] (by decide) (by decide) (by decide)
  have hval : pyVal false (digitsVal (['7'] ++ List.takeWhile Char.isDigit ['9']))
      (-((List.takeWhile Char.isDigit ['9']).length : ℤ)) = Rat.divInt 79 10 := by
    have h79 : digitsVal (['7'] ++ List.takeWhile Char.isDigit ['9']) = 79 := by decide
    have hlen : ((List.takeWhile Char.isDigit ['9']).length : ℤ) = 1 := by decide
    rw [h79, hlen, pyVal, Rat.divInt_eq_div]
    norm_num
  have h1 : pyFloatQ (removeCommas (pyStrip "7.9")) = some (Rat.divInt 79 10) := by
    rw [hstr, hp0, hval]
  have h2 : (Rat.divInt 79 10).den ≠ 1 := by decide
  have h := c10_fractional_truncation "7.9" (Rat.divInt 79 10) h1 h2
  exact ⟨h1, h2, h.1, by rw [h.1]; decide⟩
